import Mathlib

/-!
Shallow embedding of the int4 weight-packing and tiled dequant-GEMM kernels of
`aten/src/ATen/native/cpu/int4mm_kernel.cpp`.

Buffers are modelled as total functions from flat indices: `Nat → ℚ` for the
bfloat16 activation / scale-zero / output buffers (a value of type ℚ stands for
the real number held by the floating-point datum), and `Nat → Nat` for the
packed uint8 weight buffer.  Machine integer casts keep their mod-2^w
semantics.  The narrowing float32 → bfloat16 conversion performed by the store
`C[m * ldc + n] = c_val` is modelled by an abstract function `rnd : ℚ → ℚ`
threaded through the kernels.  A `TORCH_CHECK(false, msg)` failure is an
`Except.error msg`.  Stateful loops that write through raw pointers are
modelled by explicit write lists replayed in program order.
-/

namespace Int4mm

/-- The truncating cast `(uint8_t)v` of a C `int32_t` value `v` to a byte. -/
def toByte (v : Int) : Nat := (v % 256).toNat

/-- The packing expression `(((uint8_t)(val1) << 4)) | ((uint8_t)(val0))`
assigned into a `uint8_t` slot (so reduced mod 256). -/
def packBytePair (val1 val0 : Int) : Nat :=
  ((toByte val1 <<< 4) ||| toByte val0) % 256

/-- `is_block_start(index, BLOCK_SIZE)`: `!(index & (BLOCK_SIZE - 1))`. -/
def is_block_start (index BLOCK_SIZE : Nat) : Bool :=
  (index &&& (BLOCK_SIZE - 1)) == 0

/-- The 16-entry constant table `lut` of `convert_int4_to_float`. -/
def lut16 : Nat → ℚ
  | 0 => -8 | 1 => -7 | 2 => -6 | 3 => -5
  | 4 => -4 | 5 => -3 | 6 => -2 | 7 => -1
  | 8 => 0 | 9 => 1 | 10 => 2 | 11 => 3
  | 12 => 4 | 13 => 5 | 14 => 6 | 15 => 7
  | _ => 0

/-- `convert_int4_to_float(uint8_t a, bool is_even)`:
`lut[is_even ? (a & 0x0F) : (a >> 4)]`. -/
def convert_int4_to_float (a : Nat) (is_even : Bool) : ℚ :=
  lut16 (if is_even then a &&& 0x0F else a >>> 4)

/-- One store `buf[p.1] = p.2` through a raw pointer. -/
def store {α : Type} (f : Nat → α) (p : Nat × α) : Nat → α :=
  Function.update f p.1 p.2

/-- Replay a list of stores in program order. -/
def applyWrites {α : Type} (ws : List (Nat × α)) (f : Nat → α) : Nat → α :=
  ws.foldl store f

/-- The stores performed by `weight_to_int4pack_kernel` in the non-vectorized
build (the `#else` branch): `BLOCK_N = 32`, blocks of `BLOCK_N` columns packed
as adjacent nibble pairs.  `w` is the flat `int32_t` weight buffer of the N×K
row-major weight matrix; addresses are byte offsets into the packed buffer. -/
def weight_to_int4pack_writes (w : Nat → Int) (N K : Nat) : List (Nat × Nat) :=
  let BLOCK_N := 32
  let NB := (N + BLOCK_N - 1) / BLOCK_N
  (List.range NB).flatMap (fun i =>
    let nb_size := min BLOCK_N (N - i * BLOCK_N)
    (List.range K).flatMap (fun k =>
      (List.range ((nb_size + 1) / 2)).map (fun j =>
        let n := 2 * j
        let val0 := w (i * BLOCK_N * K + n * K + k)
        let val1 := w (i * BLOCK_N * K + n * K + K + k)
        (i * K * BLOCK_N / 2 + k * nb_size / 2 + n / 2, packBytePair val1 val0))))

/-- `weight_to_int4pack_kernel` (non-vectorized build): the packed byte buffer
obtained by replaying all stores on a zero-initialized buffer. -/
def weight_to_int4pack_kernel (w : Nat → Int) (N K : Nat) : Nat → Nat :=
  applyWrites (weight_to_int4pack_writes w N K) (fun _ => 0)

/-- The stores performed by `weight_to_int4pack_kernel` in the AVX512 build:
`BLOCK_N = 64`; a full-width block packs column `d` with column `d + 32` and
column `d + 16` with column `d + 48`; a remainder block (nb_size 16, 32, 48)
packs adjacent pairs. -/
def weight_to_int4pack_writes_avx512 (w : Nat → Int) (N K : Nat) :
    List (Nat × Nat) :=
  let BLOCK_N := 64
  let NB := (N + BLOCK_N - 1) / BLOCK_N
  (List.range NB).flatMap (fun i =>
    let nb_size := min BLOCK_N (N - i * BLOCK_N)
    (List.range K).flatMap (fun k =>
      if nb_size = BLOCK_N then
        (List.range 16).flatMap (fun d =>
          let val0 := w (i * BLOCK_N * K + (d + 0) * K + k)
          let val1 := w (i * BLOCK_N * K + (d + 16) * K + k)
          let val2 := w (i * BLOCK_N * K + (d + 32) * K + k)
          let val3 := w (i * BLOCK_N * K + (d + 48) * K + k)
          [(i * K * BLOCK_N / 2 + k * 32 + d, packBytePair val2 val0),
           (i * K * BLOCK_N / 2 + k * 32 + 16 + d, packBytePair val3 val1)])
      else
        (List.range ((nb_size + 1) / 2)).map (fun j =>
          let n := 2 * j
          let val0 := w (i * BLOCK_N * K + n * K + k)
          let val1 := w (i * BLOCK_N * K + n * K + K + k)
          (i * K * BLOCK_N / 2 + k * nb_size / 2 + n / 2,
           packBytePair val1 val0))))

/-- `weight_to_int4pack_kernel` (AVX512 build). -/
def weight_to_int4pack_kernel_avx512 (w : Nat → Int) (N K : Nat) : Nat → Nat :=
  applyWrites (weight_to_int4pack_writes_avx512 w N K) (fun _ => 0)

/-- The stores performed by `weight_to_int4pack_kernel` in the AVX2 build:
`BLOCK_N = 32`; a full-width block packs column `d` with column `d + 16`;
a remainder block (nb_size 16) packs adjacent pairs. -/
def weight_to_int4pack_writes_avx2 (w : Nat → Int) (N K : Nat) :
    List (Nat × Nat) :=
  let BLOCK_N := 32
  let NB := (N + BLOCK_N - 1) / BLOCK_N
  (List.range NB).flatMap (fun i =>
    let nb_size := min BLOCK_N (N - i * BLOCK_N)
    (List.range K).flatMap (fun k =>
      if nb_size = BLOCK_N then
        (List.range 16).map (fun d =>
          let val0 := w (i * BLOCK_N * K + (d + 0) * K + k)
          let val1 := w (i * BLOCK_N * K + (d + 16) * K + k)
          (i * K * BLOCK_N / 2 + k * 16 + d, packBytePair val1 val0))
      else
        (List.range ((nb_size + 1) / 2)).map (fun j =>
          let n := 2 * j
          let val0 := w (i * BLOCK_N * K + n * K + k)
          let val1 := w (i * BLOCK_N * K + n * K + K + k)
          (i * K * BLOCK_N / 2 + k * nb_size / 2 + n / 2,
           packBytePair val1 val0))))

/-- `weight_to_int4pack_kernel` (AVX2 build). -/
def weight_to_int4pack_kernel_avx2 (w : Nat → Int) (N K : Nat) : Nat → Nat :=
  applyWrites (weight_to_int4pack_writes_avx2 w N K) (fun _ => 0)

/-- The scalar `tinygemm_kernel<BLOCK_M, BLOCK_N>` (non-vectorized build):
for each (m, n) of the tile it accumulates `c_val` over `k = 0 .. K-1` in
working (float) precision and performs the single narrowing store
`C[m * ldc + n] = c_val`; returned as the list of stores into C.
`A`, `B`, `ScaleAndZeros` are the raw buffers reached through the
corresponding pointers. -/
def tinygemm_kernel (rnd : ℚ → ℚ) (BLOCK_M BLOCK_N : Nat)
    (A : Nat → ℚ) (B : Nat → Nat) (ScaleAndZeros : Nat → ℚ)
    (lda ldb ldc K BLOCK_K : Nat) : List (Nat × ℚ) :=
  (List.range BLOCK_M).flatMap (fun m =>
    (List.range BLOCK_N).map (fun n =>
      (m * ldc + n,
        rnd ((List.range K).foldl (fun c_val k =>
          let kb := k / BLOCK_K
          let scale := ScaleAndZeros (kb * ldc * 2 + n * 2)
          let zero := ScaleAndZeros (kb * ldc * 2 + n * 2 + 1)
          let a_val := A (m * lda + k)
          let b_pack := B (k * ldb + n / 2)
          let b_val := convert_int4_to_float b_pack (n % 2 == 0)
          c_val + a_val * (b_val * scale + zero)) 0))))

/-- The `LAUNCH_TINYGEMM_NB_SIZE(MB_SIZE)` switch on `nb_size`: each supported
case launches `tinygemm_kernel<MB_SIZE, NB_SIZE>(A_ptr, B_ptr, S_ptr, C_ptr,
K, NB_SIZE / 2, N, K, BLOCK_K)`; the default case is
`TORCH_CHECK(false, "Unsupported n block size: ", nb_size)`. -/
def launch_tinygemm_nb_size (rnd : ℚ → ℚ) (MB_SIZE nb_size : Nat)
    (A : Nat → ℚ) (B : Nat → Nat) (S : Nat → ℚ) (N K BLOCK_K : Nat) :
    Except String (List (Nat × ℚ)) :=
  match nb_size with
  | 16 => .ok (tinygemm_kernel rnd MB_SIZE 16 A B S K (16 / 2) N K BLOCK_K)
  | 32 => .ok (tinygemm_kernel rnd MB_SIZE 32 A B S K (32 / 2) N K BLOCK_K)
  | 48 => .ok (tinygemm_kernel rnd MB_SIZE 48 A B S K (48 / 2) N K BLOCK_K)
  | 64 => .ok (tinygemm_kernel rnd MB_SIZE 64 A B S K (64 / 2) N K BLOCK_K)
  | _ => .error ("Unsupported n block size: " ++ toString nb_size)

/-- The `switch (mb_size)` dispatch of `int4pack_mm_kernel`: cases 1..4 enter
`LAUNCH_TINYGEMM_NB_SIZE(mb_size)`; the default case is
`TORCH_CHECK(false, "Unsupported m block size: ", mb_size)`. -/
def tile_dispatch (rnd : ℚ → ℚ) (mb_size nb_size : Nat)
    (A : Nat → ℚ) (B : Nat → Nat) (S : Nat → ℚ) (N K BLOCK_K : Nat) :
    Except String (List (Nat × ℚ)) :=
  match mb_size with
  | 1 => launch_tinygemm_nb_size rnd 1 nb_size A B S N K BLOCK_K
  | 2 => launch_tinygemm_nb_size rnd 2 nb_size A B S N K BLOCK_K
  | 3 => launch_tinygemm_nb_size rnd 3 nb_size A B S N K BLOCK_K
  | 4 => launch_tinygemm_nb_size rnd 4 nb_size A B S N K BLOCK_K
  | _ => .error ("Unsupported m block size: " ++ toString mb_size)

/-- Modelled from the spec: `data_index_init(begin, mb, MB, nb, NB)` of
`ATen/native/cpu/utils.h`, which is not part of this corpus.  The spec: each
worker converts its flat index back to (mb, nb) via row-major divmod. -/
def data_index_init (begin0 NB : Nat) : Nat × Nat :=
  (begin0 / NB, begin0 % NB)

/-- Modelled from the spec: `data_index_step(mb, MB, nb, NB)` of
`ATen/native/cpu/utils.h`, which is not part of this corpus.  The spec:
stepping to the next tile by incrementing nb and carrying into mb on
overflow. -/
def data_index_step (mbnb : Nat × Nat) (NB : Nat) : Nat × Nat :=
  if mbnb.2 + 1 < NB then (mbnb.1, mbnb.2 + 1) else (mbnb.1 + 1, 0)

/-- The body of the `parallel_for` of `int4pack_mm_kernel`, run sequentially
over a list of flat tile indices (only the length of the list matters, as in
the source, which ignores `i`): each iteration computes the tile coordinates
and sizes, dispatches the tile kernel and replays its stores into C shifted by
`C_ptr = C_data + mb_start * N + nb_start`, then advances (mb, nb). -/
def int4pack_mm_loop (rnd : ℚ → ℚ) (BLOCK_N : Nat)
    (A : Nat → ℚ) (B : Nat → Nat) (S : Nat → ℚ) (M N K BLOCK_K : Nat) :
    List Nat → Nat × Nat → (Nat → ℚ) → Except String (Nat → ℚ)
  | [], _, C => .ok C
  | _ :: rest, (mb, nb), C =>
    let BLOCK_M := 4
    let NB := (N + BLOCK_N - 1) / BLOCK_N
    let mb_start := mb * BLOCK_M
    let mb_size := min BLOCK_M (M - mb_start)
    let nb_start := nb * BLOCK_N
    let nb_size := min BLOCK_N (N - nb_start)
    let A_ptr := fun t => A (mb_start * K + t)
    let B_ptr := fun t => B (nb_start * K / 2 + t)
    let S_ptr := fun t => S (nb_start * 2 + t)
    match tile_dispatch rnd mb_size nb_size A_ptr B_ptr S_ptr N K BLOCK_K with
    | .error e => .error e
    | .ok ws =>
      int4pack_mm_loop rnd BLOCK_N A B S M N K BLOCK_K rest
        (data_index_step (mb, nb) NB)
        (applyWrites (ws.map (fun p => (mb_start * N + nb_start + p.1, p.2))) C)

/-- `int4pack_mm_kernel(C, A, B, qGroupSize, qScaleAndZeros, N, K)`:
`BLOCK_M = 4`, `BLOCK_N` is the build's tile width (64 for AVX512, 32 for
AVX2 / non-vectorized), `BLOCK_K = qGroupSize`; the `MB * NB` flat tile range
is processed with the 2D index carried by `data_index_init` /
`data_index_step`.  `c0` is the initial content of the output buffer. -/
def int4pack_mm_kernel (rnd : ℚ → ℚ) (BLOCK_N : Nat)
    (A : Nat → ℚ) (B : Nat → Nat) (S : Nat → ℚ)
    (M N K qGroupSize : Nat) (c0 : Nat → ℚ) : Except String (Nat → ℚ) :=
  let BLOCK_M := 4
  let BLOCK_K := qGroupSize
  let MB := (M + BLOCK_M - 1) / BLOCK_M
  let NB := (N + BLOCK_N - 1) / BLOCK_N
  int4pack_mm_loop rnd BLOCK_N A B S M N K BLOCK_K
    (List.range (MB * NB)) (data_index_init 0 NB) c0

/-- Flat index of the packed byte that the GEMM kernel reads for output column
`n` and reduction index `k`: it reads `B_ptr[k * ldb + n_rel / 2]` through
`B_ptr = B_data + nb_start * K / 2` with `ldb = nb_size / 2`. -/
def packedIndex (BLOCK_N N K n k : Nat) : Nat :=
  let nb := n / BLOCK_N
  let nb_start := nb * BLOCK_N
  let nb_size := min BLOCK_N (N - nb_start)
  nb_start * K / 2 + k * (nb_size / 2) + (n - nb_start) / 2

/-- The int4 value of packed-weight column `n` at reduction index `k`, by the
kernel's own nibble decode (`convert_int4_to_float` on the byte it reads). -/
def decodeW (Bp : Nat → Nat) (BLOCK_N N K k n : Nat) : ℚ :=
  convert_int4_to_float (Bp (packedIndex BLOCK_N N K n k)) (n % 2 == 0)

/-- The naive triple-loop reference of the spec:
`C[m,n] = sum_k A[m,k] * (W[k,n] * scale + zero)`, using for each `k` the
(scale, zero) pair of group `k / group_size` and column `n`, narrowed once at
store time. -/
def naiveRef (rnd : ℚ → ℚ) (A : Nat → ℚ) (W : Nat → Nat → ℚ) (S : Nat → ℚ)
    (N K group_size m n : Nat) : ℚ :=
  rnd (∑ k ∈ Finset.range K,
    A (m * K + k) *
      (W k n * S ((k / group_size) * (N * 2) + n * 2) +
        S ((k / group_size) * (N * 2) + n * 2 + 1)))

/-- The flat output addresses written by tile `i` of `int4pack_mm_kernel`:
the addresses of the tile kernel's stores shifted by
`C_ptr = C_data + mb_start * N + nb_start`. -/
def tileWriteAddrs (rnd : ℚ → ℚ) (A : Nat → ℚ) (B : Nat → Nat) (S : Nat → ℚ)
    (M N K BLOCK_N BLOCK_K i : Nat) : List Nat :=
  let NB := (N + BLOCK_N - 1) / BLOCK_N
  let mb := i / NB
  let nb := i % NB
  let mb_start := mb * 4
  let mb_size := min 4 (M - mb_start)
  let nb_start := nb * BLOCK_N
  let nb_size := min BLOCK_N (N - nb_start)
  (tinygemm_kernel rnd mb_size nb_size A B S K (nb_size / 2) N K BLOCK_K).map
    (fun p => mb_start * N + nb_start + p.1)

end Int4mm

namespace Int4mm

/-- Reading an address no store in the list touches returns the prior value. -/
theorem applyWrites_of_not_mem {α : Type} (ws : List (Nat × α)) (f : Nat → α)
    (a : Nat) (h : ∀ p ∈ ws, p.1 ≠ a) : applyWrites ws f a = f a := by
  induction ws generalizing f with
  | nil => rfl
  | cons p t ih =>
    have hp : p.1 ≠ a := h p (List.mem_cons_self p t)
    have hstep : store f p a = f a := Function.update_noteq (Ne.symm hp) _ _
    have hrest := ih (store f p) (fun q hq => h q (List.mem_cons_of_mem p hq))
    calc applyWrites (p :: t) f a = applyWrites t (store f p) a := rfl
      _ = store f p a := hrest
      _ = f a := hstep

/-- If every store in the list that touches address `a` stores the value `v`,
and either some store touches `a` or the prior value at `a` is already `v`,
then after replaying the list the value at `a` is `v`. -/
theorem applyWrites_const {α : Type} (ws : List (Nat × α)) (f : Nat → α)
    (a : Nat) (v : α) (huniq : ∀ p ∈ ws, p.1 = a → p.2 = v)
    (hsrc : (a, v) ∈ ws ∨ f a = v) : applyWrites ws f a = v := by
  induction ws generalizing f with
  | nil =>
    rcases hsrc with h | h
    · exact absurd h (List.not_mem_nil _)
    · exact h
  | cons p t ih =>
    have huniq' : ∀ q ∈ t, q.1 = a → q.2 = v :=
      fun q hq => huniq q (List.mem_cons_of_mem p hq)
    by_cases hpa : p.1 = a
    · have hv : p.2 = v := huniq p (List.mem_cons_self p t) hpa
      have hupd : store f p a = v := by
        subst hpa
        simp [store, hv, Function.update_same]
      have := ih (store f p) huniq' (Or.inr hupd)
      simpa [applyWrites] using this
    · rcases hsrc with h | h
      · rcases List.mem_cons.mp h with h' | h'
        · exact absurd (congrArg Prod.fst h'.symm) hpa
        · have := ih (store f p) huniq' (Or.inl h')
          simpa [applyWrites] using this
      · have hupd : store f p a = f a := Function.update_noteq (Ne.symm hpa) _ _
        have := ih (store f p) huniq' (Or.inr (hupd.trans h))
        simpa [applyWrites] using this

/-- Uniqueness of quotient and remainder: decompositions `q * H + r` with
`r < H` are unique. -/
theorem mul_add_inj {H q r q' r' : Nat} (hr : r < H) (hr' : r' < H)
    (h : q * H + r = q' * H + r') : q = q' ∧ r = r' := by
  have h0 : 0 < H := by omega
  constructor
  · have e1 : (q * H + r) / H = q := by
      rw [Nat.mul_comm q H, Nat.mul_add_div h0, Nat.div_eq_of_lt hr, Nat.add_zero]
    have e2 : (q' * H + r') / H = q' := by
      rw [Nat.mul_comm q' H, Nat.mul_add_div h0, Nat.div_eq_of_lt hr', Nat.add_zero]
    rw [← e1, ← e2, h]
  · have e1 : (q * H + r) % H = r := by
      rw [Nat.mul_comm q H, Nat.mul_add_mod, Nat.mod_eq_of_lt hr]
    have e2 : (q' * H + r') % H = r' := by
      rw [Nat.mul_comm q' H, Nat.mul_add_mod, Nat.mod_eq_of_lt hr']
    rw [← e1, ← e2, h]

/-- A `q * H + r` decomposition with `q < Q` and `r < H` is below `Q * H`. -/
theorem mul_add_lt {Q H q r : Nat} (hq : q < Q) (hr : r < H) :
    q * H + r < Q * H := by
  have h1 : q * H + r < q * H + H := by omega
  have h2 : q * H + H = (q + 1) * H := by ring
  have h3 : (q + 1) * H ≤ Q * H := Nat.mul_le_mul_right H hq
  omega

/-- Advancing the 2D tile index agrees with divmod of the next flat index. -/
theorem data_index_step_divmod (NB f : Nat) (hNB : 0 < NB) :
    data_index_step (f / NB, f % NB) NB = ((f + 1) / NB, (f + 1) % NB) := by
  unfold data_index_step
  simp only
  have hd := Nat.div_add_mod f NB
  have hmod : f % NB < NB := Nat.mod_lt f hNB
  rcases Nat.lt_or_ge (f % NB + 1) NB with h | h
  · have hu : (f + 1) / NB = f / NB ∧ (f + 1) % NB = f % NB + 1 :=
      (Nat.div_mod_unique hNB).mpr ⟨by omega, h⟩
    rw [if_pos h, hu.1, hu.2]
  · have heq : f % NB + 1 = NB := by omega
    have hu : (f + 1) / NB = f / NB + 1 ∧ (f + 1) % NB = 0 :=
      (Nat.div_mod_unique hNB).mpr ⟨by ring_nf; omega, hNB⟩
    rw [if_neg (by omega), hu.1, hu.2]

/-- Two folds over the same list agree when their step functions agree on the
list's elements. -/
theorem foldl_congr_mem {α β : Type} (l : List β) (f g : α → β → α) (i : α)
    (h : ∀ a, ∀ b ∈ l, f a b = g a b) : l.foldl f i = l.foldl g i := by
  induction l generalizing i with
  | nil => rfl
  | cons b t ih =>
    simp only [List.foldl_cons]
    rw [h i b (List.mem_cons_self b t)]
    exact ih _ (fun a b' hb' => h a b' (List.mem_cons_of_mem b hb'))

/-- A left fold of accumulated additions is the sum over the range. -/
theorem foldl_add_eq_sum (K : Nat) (g : Nat → ℚ) :
    (List.range K).foldl (fun c k => c + g k) 0 = ∑ k ∈ Finset.range K, g k := by
  have main : ∀ n : Nat, ∀ i : ℚ,
      (List.range n).foldl (fun c k => c + g k) i =
        i + ∑ k ∈ Finset.range n, g k := by
    intro n
    induction n with
    | zero => intro i; simp
    | succ n ih =>
      intro i
      rw [List.range_succ, List.foldl_append, ih i]
      simp [Finset.sum_range_succ]
      ring
  simpa using main K 0

end Int4mm

namespace Int4mm

/-- A two-level index `k * e + j` with `k < K`, `j < e ≤ E` is below `K * E`. -/
theorem inner_lt {k e j K E : Nat} (hk : k < K) (he : e ≤ E) (hj : j < e) :
    k * e + j < K * E :=
  calc k * e + j < k * e + e := Nat.add_lt_add_left hj _
    _ = (k + 1) * e := by ring
    _ ≤ K * E := Nat.mul_le_mul hk he

/-- Reading back the packed buffer of the non-vectorized packer: the byte the
GEMM kernel reads for column `n` and reduction index `k` holds the adjacent
column pair `(2⌊n/2⌋, 2⌊n/2⌋ + 1)`, low nibble first. -/
theorem weight_to_int4pack_read (w : Nat → Int) (N K n k : Nat)
    (hN : N % 2 = 0) (hn : n < N) (hk : k < K) :
    weight_to_int4pack_kernel w N K (packedIndex 32 N K n k) =
      packBytePair (w ((2 * (n / 2) + 1) * K + k)) (w ((2 * (n / 2)) * K + k)) := by
  have hx2 : ∀ x : Nat, x * 2 / 2 = x := fun x => by omega
  have hx32 : ∀ x : Nat, x * 32 / 2 = x * 16 := fun x => by omega
  have haddr : packedIndex 32 N K n k =
      n / 32 * (K * 16) + (k * (min 32 (N - n / 32 * 32) / 2) + n % 32 / 2) := by
    simp only [packedIndex]
    have e1 : n / 32 * 32 * K = n / 32 * K * 32 := by ring
    have e2 : n - n / 32 * 32 = n % 32 := by omega
    rw [e1, hx32, e2]
    ring
  have hcol : n / 32 * 32 + 2 * (n % 32 / 2) = 2 * (n / 2) := by omega
  have hidx0 : n / 32 * 32 * K + 2 * (n % 32 / 2) * K + k = 2 * (n / 2) * K + k := by
    have : n / 32 * 32 * K + 2 * (n % 32 / 2) * K = (n / 32 * 32 + 2 * (n % 32 / 2)) * K := by
      ring
    rw [this, hcol]
  have hidx1 : n / 32 * 32 * K + 2 * (n % 32 / 2) * K + K + k =
      (2 * (n / 2) + 1) * K + k := by
    have : n / 32 * 32 * K + 2 * (n % 32 / 2) * K + K =
        (n / 32 * 32 + 2 * (n % 32 / 2)) * K + K := by ring
    rw [this, hcol]
    ring
  have hmem : (n / 32 * (K * 16) + (k * (min 32 (N - n / 32 * 32) / 2) + n % 32 / 2),
      packBytePair (w ((2 * (n / 2) + 1) * K + k)) (w ((2 * (n / 2)) * K + k)))
      ∈ weight_to_int4pack_writes w N K := by
    simp only [weight_to_int4pack_writes]
    apply List.mem_flatMap.mpr
    refine ⟨n / 32, List.mem_range.mpr (by omega), ?_⟩
    apply List.mem_flatMap.mpr
    refine ⟨k, List.mem_range.mpr hk, ?_⟩
    apply List.mem_map.mpr
    refine ⟨n % 32 / 2, List.mem_range.mpr (by omega), ?_⟩
    have ha : n / 32 * K * 32 / 2 + k * (min 32 (N - n / 32 * 32)) / 2 +
        2 * (n % 32 / 2) / 2 =
        n / 32 * (K * 16) + (k * (min 32 (N - n / 32 * 32) / 2) + n % 32 / 2) := by
      have hnbs_even : (min 32 (N - n / 32 * 32)) % 2 = 0 := by omega
      have eb : k * (min 32 (N - n / 32 * 32)) = k * (min 32 (N - n / 32 * 32) / 2) * 2 := by
        have : min 32 (N - n / 32 * 32) = min 32 (N - n / 32 * 32) / 2 * 2 := by omega
        calc k * (min 32 (N - n / 32 * 32)) = k * (min 32 (N - n / 32 * 32) / 2 * 2) := by
              rw [← this]
          _ = k * (min 32 (N - n / 32 * 32) / 2) * 2 := by ring
      rw [hx32, eb, hx2]
      have : 2 * (n % 32 / 2) = (n % 32 / 2) * 2 := by ring
      rw [this, hx2]
      ring
    rw [← ha, ← hidx0, ← hidx1]
  have huniq : ∀ p ∈ weight_to_int4pack_writes w N K,
      p.1 = n / 32 * (K * 16) + (k * (min 32 (N - n / 32 * 32) / 2) + n % 32 / 2) →
      p.2 = packBytePair (w ((2 * (n / 2) + 1) * K + k)) (w ((2 * (n / 2)) * K + k)) := by
    intro p hp hpe
    simp only [weight_to_int4pack_writes] at hp
    obtain ⟨i', hi', hp⟩ := List.mem_flatMap.mp hp
    obtain ⟨k', hk', hp⟩ := List.mem_flatMap.mp hp
    obtain ⟨j', hj', hpe'⟩ := List.mem_map.mp hp
    rw [List.mem_range] at hi' hk' hj'
    subst hpe'
    simp only at hpe ⊢
    have hnbs'_even : (min 32 (N - i' * 32)) % 2 = 0 := by omega
    have ha' : i' * K * 32 / 2 + k' * (min 32 (N - i' * 32)) / 2 + 2 * j' / 2 =
        i' * (K * 16) + (k' * (min 32 (N - i' * 32) / 2) + j') := by
      have eb : k' * (min 32 (N - i' * 32)) = k' * (min 32 (N - i' * 32) / 2) * 2 := by
        have h2 : min 32 (N - i' * 32) = min 32 (N - i' * 32) / 2 * 2 := by omega
        calc k' * (min 32 (N - i' * 32)) = k' * (min 32 (N - i' * 32) / 2 * 2) := by
              rw [← h2]
          _ = k' * (min 32 (N - i' * 32) / 2) * 2 := by ring
      have e1 : i' * K * 32 / 2 = i' * K * 16 := hx32 (i' * K)
      have e3 : 2 * j' = j' * 2 := by ring
      rw [e1, eb, hx2, e3, hx2]
      ring
    rw [ha'] at hpe
    have hj'e : j' < min 32 (N - i' * 32) / 2 := by omega
    have hinner' : k' * (min 32 (N - i' * 32) / 2) + j' < K * 16 :=
      inner_lt hk' (by omega) hj'e
    have hinner : k * (min 32 (N - n / 32 * 32) / 2) + n % 32 / 2 < K * 16 :=
      inner_lt hk (by omega) (by omega)
    obtain ⟨hi_eq, hin_eq⟩ := mul_add_inj hinner' hinner hpe
    subst hi_eq
    obtain ⟨hk_eq, hj_eq⟩ := mul_add_inj hj'e (by omega) hin_eq
    subst hk_eq
    subst hj_eq
    rw [hidx0, hidx1]
  rw [weight_to_int4pack_kernel, haddr]
  exact applyWrites_const _ _ _ _ huniq (Or.inl hmem)

end Int4mm

namespace Int4mm

/-- Halving bound: `k * nbs / 2 ≤ k * c` once `nbs ≤ 2 * c`. -/
theorem half_mul_le {k nbs c : Nat} (h : nbs ≤ 2 * c) : k * nbs / 2 ≤ k * c := by
  have h1 : k * nbs ≤ k * c * 2 := by
    calc k * nbs ≤ k * (2 * c) := Nat.mul_le_mul_left k h
      _ = k * c * 2 := by ring
  calc k * nbs / 2 ≤ k * c * 2 / 2 := Nat.div_le_div_right h1
    _ = k * c := by omega

/-- A two-level bound: `x + j < K * E` when `x ≤ k * E`, `j < E`, `k < K`. -/
theorem inner_le_lt {x k j K E : Nat} (hx : x ≤ k * E) (hj : j < E) (hk : k < K) :
    x + j < K * E :=
  calc x + j ≤ k * E + j := Nat.add_le_add_right hx j
    _ < k * E + E := Nat.add_lt_add_left hj _
    _ = (k + 1) * E := by ring
    _ ≤ K * E := Nat.mul_le_mul hk (Nat.le_refl E)

/-- Reading back a full-width (nb_size = 64) block of the AVX512 packer: the
byte at offset `k * 32 + t` of block `i` holds column-lane `t` in its low
nibble and column-lane `t + 32` (spacing `BLOCK_N / 2`) in its high nibble,
for every `t < 32`. -/
theorem weight_to_int4pack_avx512_read_full (w : Nat → Int) (N K i k t : Nat)
    (hfull : min 64 (N - i * 64) = 64) (hk : k < K) (ht : t < 32) :
    weight_to_int4pack_kernel_avx512 w N K (i * (K * 32) + (k * 32 + t)) =
      packBytePair (w (i * 64 * K + (t + 32) * K + k))
        (w (i * 64 * K + t * K + k)) := by
  have hx2 : ∀ x : Nat, x * 2 / 2 = x := fun x => by omega
  have hhalf : ∀ x : Nat, x * 64 / 2 = x * 32 := fun x => by omega
  have hiNB : i < (N + 64 - 1) / 64 := by omega
  have hmem : (i * (K * 32) + (k * 32 + t),
      packBytePair (w (i * 64 * K + (t + 32) * K + k)) (w (i * 64 * K + t * K + k)))
      ∈ weight_to_int4pack_writes_avx512 w N K := by
    simp only [weight_to_int4pack_writes_avx512]
    apply List.mem_flatMap.mpr
    refine ⟨i, List.mem_range.mpr hiNB, ?_⟩
    apply List.mem_flatMap.mpr
    refine ⟨k, List.mem_range.mpr hk, ?_⟩
    rw [if_pos hfull]
    apply List.mem_flatMap.mpr
    rcases Nat.lt_or_ge t 16 with h16 | h16
    · refine ⟨t, List.mem_range.mpr h16, ?_⟩
      have ha : i * K * 64 / 2 + k * 32 + t = i * (K * 32) + (k * 32 + t) := by
        have e1 : i * K * 64 / 2 = i * (K * 32) := by
          have : i * K * 64 = i * (K * 32) * 2 := by ring
          rw [this, hx2]
        omega
      have e0 : (t + 0) * K = t * K := by ring
      rw [← ha, ← e0]
      exact List.mem_cons_self _ _
    · refine ⟨t - 16, List.mem_range.mpr (by omega), ?_⟩
      have ha : i * K * 64 / 2 + k * 32 + 16 + (t - 16) = i * (K * 32) + (k * 32 + t) := by
        have e1 : i * K * 64 / 2 = i * (K * 32) := by
          have : i * K * 64 = i * (K * 32) * 2 := by ring
          rw [this, hx2]
        omega
      have e2 : (t - 16 + 48) * K = (t + 32) * K := by
        have : t - 16 + 48 = t + 32 := by omega
        rw [this]
      have e3 : (t - 16 + 16) * K = t * K := by
        have : t - 16 + 16 = t := by omega
        rw [this]
      rw [← ha, ← e2, ← e3]
      exact List.mem_cons_of_mem _ (List.mem_cons_self _ _)
  have huniq : ∀ p ∈ weight_to_int4pack_writes_avx512 w N K,
      p.1 = i * (K * 32) + (k * 32 + t) →
      p.2 = packBytePair (w (i * 64 * K + (t + 32) * K + k))
        (w (i * 64 * K + t * K + k)) := by
    intro p hp hpe
    simp only [weight_to_int4pack_writes_avx512] at hp
    obtain ⟨i', hi', hp⟩ := List.mem_flatMap.mp hp
    obtain ⟨k', hk', hp⟩ := List.mem_flatMap.mp hp
    rw [List.mem_range] at hi' hk'
    have htgt : k * 32 + t < K * 32 := inner_le_lt (Nat.mul_le_mul_left k (by omega)) ht hk
    by_cases hb : min 64 (N - i' * 64) = 64
    · rw [if_pos hb] at hp
      obtain ⟨d', hd', hp⟩ := List.mem_flatMap.mp hp
      rw [List.mem_range] at hd'
      have e1 : i' * K * 64 / 2 = i' * (K * 32) := by
        have : i' * K * 64 = i' * (K * 32) * 2 := by ring
        rw [this, hx2]
      rcases List.mem_cons.mp hp with hp1 | hp1
      · subst hp1
        simp only at hpe ⊢
        rw [e1] at hpe
        have hre : i' * (K * 32) + k' * 32 + d' =
            i' * (K * 32) + (k' * 32 + d') := by omega
        rw [hre] at hpe
        have hinner1 : k' * 32 + d' < K * 32 :=
          inner_le_lt (Nat.le_refl _) (by omega) hk'
        obtain ⟨hi_eq, hin⟩ := mul_add_inj hinner1 htgt hpe
        obtain ⟨hk_eq, hd_eq⟩ := mul_add_inj (by omega) (by omega) hin
        subst hi_eq; subst hk_eq
        rw [hd_eq]
        have e2 : (t + 0) * K = t * K := by ring
        rw [e2]
      · rw [List.mem_singleton] at hp1
        subst hp1
        simp only at hpe ⊢
        rw [e1] at hpe
        have hre : i' * (K * 32) + k' * 32 + 16 + d' =
            i' * (K * 32) + (k' * 32 + (16 + d')) := by omega
        rw [hre] at hpe
        have hinner1 : k' * 32 + (16 + d') < K * 32 :=
          inner_le_lt (Nat.le_refl _) (by omega) hk'
        obtain ⟨hi_eq, hin⟩ := mul_add_inj hinner1 htgt hpe
        obtain ⟨hk_eq, hd_eq⟩ := mul_add_inj (by omega) (by omega) hin
        subst hi_eq; subst hk_eq
        have e2 : (d' + 48) * K = (t + 32) * K := by
          have : d' + 48 = t + 32 := by omega
          rw [this]
        have e3 : (d' + 16) * K = t * K := by
          have : d' + 16 = t := by omega
          rw [this]
        rw [e2, e3]
    · rw [if_neg hb] at hp
      obtain ⟨j', hj', hpe'⟩ := List.mem_map.mp hp
      rw [List.mem_range] at hj'
      subst hpe'
      simp only at hpe ⊢
      have hnbs' : min 64 (N - i' * 64) ≤ 64 := by omega
      have e1 : i' * K * 64 / 2 = i' * (K * 32) := by
        have : i' * K * 64 = i' * (K * 32) * 2 := by ring
        rw [this, hx2]
      have hsplit : i' * K * 64 / 2 + k' * (min 64 (N - i' * 64)) / 2 + 2 * j' / 2 =
          i' * (K * 32) + (k' * (min 64 (N - i' * 64)) / 2 + j') := by
        rw [e1]
        have : 2 * j' = j' * 2 := by ring
        rw [this, hx2]
        omega
      rw [hsplit] at hpe
      have hinner1 : k' * (min 64 (N - i' * 64)) / 2 + j' < K * 32 :=
        inner_le_lt (half_mul_le (by omega)) (by omega) hk'
      obtain ⟨hi_eq, hin⟩ := mul_add_inj hinner1 htgt hpe
      subst hi_eq
      exact absurd hfull hb
  rw [weight_to_int4pack_kernel_avx512]
  exact applyWrites_const _ _ _ _ huniq (Or.inl hmem)

end Int4mm

namespace Int4mm

/-- Reading back a full-width (nb_size = 32) block of the AVX2 packer: the
byte at offset `k * 16 + d` of block `i` holds column-lane `d` in its low
nibble and column-lane `d + 16` (spacing `BLOCK_N / 2`) in its high nibble. -/
theorem weight_to_int4pack_avx2_read_full (w : Nat → Int) (N K i k d : Nat)
    (hfull : min 32 (N - i * 32) = 32) (hk : k < K) (hd : d < 16) :
    weight_to_int4pack_kernel_avx2 w N K (i * (K * 16) + (k * 16 + d)) =
      packBytePair (w (i * 32 * K + (d + 16) * K + k))
        (w (i * 32 * K + (d + 0) * K + k)) := by
  have hx2 : ∀ x : Nat, x * 2 / 2 = x := fun x => by omega
  have hiNB : i < (N + 32 - 1) / 32 := by omega
  have e1gen : ∀ x : Nat, x * K * 32 / 2 = x * (K * 16) := fun x => by
    have : x * K * 32 = x * (K * 16) * 2 := by ring
    rw [this, hx2]
  have hmem : (i * (K * 16) + (k * 16 + d),
      packBytePair (w (i * 32 * K + (d + 16) * K + k)) (w (i * 32 * K + (d + 0) * K + k)))
      ∈ weight_to_int4pack_writes_avx2 w N K := by
    simp only [weight_to_int4pack_writes_avx2]
    apply List.mem_flatMap.mpr
    refine ⟨i, List.mem_range.mpr hiNB, ?_⟩
    apply List.mem_flatMap.mpr
    refine ⟨k, List.mem_range.mpr hk, ?_⟩
    rw [if_pos hfull]
    apply List.mem_map.mpr
    refine ⟨d, List.mem_range.mpr hd, ?_⟩
    have ha : i * K * 32 / 2 + k * 16 + d = i * (K * 16) + (k * 16 + d) := by
      rw [e1gen i]; omega
    rw [← ha]
  have huniq : ∀ p ∈ weight_to_int4pack_writes_avx2 w N K,
      p.1 = i * (K * 16) + (k * 16 + d) →
      p.2 = packBytePair (w (i * 32 * K + (d + 16) * K + k))
        (w (i * 32 * K + (d + 0) * K + k)) := by
    intro p hp hpe
    simp only [weight_to_int4pack_writes_avx2] at hp
    obtain ⟨i', hi', hp⟩ := List.mem_flatMap.mp hp
    obtain ⟨k', hk', hp⟩ := List.mem_flatMap.mp hp
    rw [List.mem_range] at hi' hk'
    have htgt : k * 16 + d < K * 16 := inner_le_lt (Nat.le_refl _) hd hk
    by_cases hb : min 32 (N - i' * 32) = 32
    · rw [if_pos hb] at hp
      obtain ⟨d', hd', hpe'⟩ := List.mem_map.mp hp
      rw [List.mem_range] at hd'
      subst hpe'
      simp only at hpe ⊢
      rw [e1gen i'] at hpe
      have hre : i' * (K * 16) + k' * 16 + d' =
          i' * (K * 16) + (k' * 16 + d') := by omega
      rw [hre] at hpe
      have hinner1 : k' * 16 + d' < K * 16 :=
        inner_le_lt (Nat.le_refl _) (by omega) hk'
      obtain ⟨hi_eq, hin⟩ := mul_add_inj hinner1 htgt hpe
      obtain ⟨hk_eq, hd_eq⟩ := mul_add_inj (by omega) (by omega) hin
      subst hi_eq; subst hk_eq
      rw [hd_eq]
    · rw [if_neg hb] at hp
      obtain ⟨j', hj', hpe'⟩ := List.mem_map.mp hp
      rw [List.mem_range] at hj'
      subst hpe'
      simp only at hpe ⊢
      have hsplit : i' * K * 32 / 2 + k' * (min 32 (N - i' * 32)) / 2 + 2 * j' / 2 =
          i' * (K * 16) + (k' * (min 32 (N - i' * 32)) / 2 + j') := by
        rw [e1gen i']
        have : 2 * j' = j' * 2 := by ring
        rw [this, hx2]
        omega
      rw [hsplit] at hpe
      have hinner1 : k' * (min 32 (N - i' * 32)) / 2 + j' < K * 16 :=
        inner_le_lt (half_mul_le (by omega)) (by omega) hk'
      obtain ⟨hi_eq, hin⟩ := mul_add_inj hinner1 htgt hpe
      subst hi_eq
      exact absurd hfull hb
  rw [weight_to_int4pack_kernel_avx2]
  exact applyWrites_const _ _ _ _ huniq (Or.inl hmem)

end Int4mm

namespace Int4mm

/-- The value the scalar tile kernel stores at tile position (m, n): the
narrowing conversion `rnd` applied once to the K-sequential accumulation. -/
def tinygemmEntry (rnd : ℚ → ℚ) (A : Nat → ℚ) (B : Nat → Nat) (S : Nat → ℚ)
    (lda ldb ldc K BLOCK_K m n : Nat) : ℚ :=
  rnd ((List.range K).foldl (fun c_val k =>
    let kb := k / BLOCK_K
    let scale := S (kb * ldc * 2 + n * 2)
    let zero := S (kb * ldc * 2 + n * 2 + 1)
    let a_val := A (m * lda + k)
    let b_pack := B (k * ldb + n / 2)
    let b_val := convert_int4_to_float b_pack (n % 2 == 0)
    c_val + a_val * (b_val * scale + zero)) 0)

/-- The tile kernel's store list, elementwise. -/
theorem tinygemm_kernel_eq (rnd : ℚ → ℚ) (BM BN : Nat) (A : Nat → ℚ)
    (B : Nat → Nat) (S : Nat → ℚ) (lda ldb ldc K BK : Nat) :
    tinygemm_kernel rnd BM BN A B S lda ldb ldc K BK =
      (List.range BM).flatMap (fun m => (List.range BN).map (fun n =>
        (m * ldc + n, tinygemmEntry rnd A B S lda ldb ldc K BK m n))) := rfl

/-- The tile kernel stores its (m, n) entry at address `m * ldc + n`. -/
theorem tinygemm_mem (rnd : ℚ → ℚ) (BM BN : Nat) (A : Nat → ℚ) (B : Nat → Nat)
    (S : Nat → ℚ) (lda ldb ldc K BK m n : Nat) (hm : m < BM) (hn : n < BN) :
    (m * ldc + n, tinygemmEntry rnd A B S lda ldb ldc K BK m n) ∈
      tinygemm_kernel rnd BM BN A B S lda ldb ldc K BK := by
  rw [tinygemm_kernel_eq]
  exact List.mem_flatMap.mpr ⟨m, List.mem_range.mpr hm,
    List.mem_map.mpr ⟨n, List.mem_range.mpr hn, rfl⟩⟩

/-- Within a tile, address `m * ldc + n` is written only with the (m, n)
entry (for `BN ≤ ldc`). -/
theorem tinygemm_uniq (rnd : ℚ → ℚ) (BM BN : Nat) (A : Nat → ℚ) (B : Nat → Nat)
    (S : Nat → ℚ) (lda ldb ldc K BK m n : Nat) (hn : n < ldc) (hBN : BN ≤ ldc) :
    ∀ p ∈ tinygemm_kernel rnd BM BN A B S lda ldb ldc K BK,
      p.1 = m * ldc + n → p.2 = tinygemmEntry rnd A B S lda ldb ldc K BK m n := by
  intro p hp hpe
  rw [tinygemm_kernel_eq] at hp
  obtain ⟨m', hm', hp⟩ := List.mem_flatMap.mp hp
  obtain ⟨n', hn', hpe'⟩ := List.mem_map.mp hp
  rw [List.mem_range] at hm' hn'
  subst hpe'
  simp only at hpe ⊢
  obtain ⟨hm_eq, hn_eq⟩ := mul_add_inj (Nat.lt_of_lt_of_le hn' hBN) hn hpe
  subst hm_eq
  rw [hn_eq]

/-- The value `int4pack_mm_kernel` computes for output element (m, n): the
narrowed K-sequential accumulation over the dequantized packed weight column
n, with the (scale, zero) pair of group `k / BLOCK_K`. -/
def mmEntry (rnd : ℚ → ℚ) (BLOCK_N : Nat) (A : Nat → ℚ) (B : Nat → Nat)
    (S : Nat → ℚ) (N K BLOCK_K m n : Nat) : ℚ :=
  rnd ((List.range K).foldl (fun c_val k =>
    c_val + A (m * K + k) *
      (convert_int4_to_float (B (packedIndex BLOCK_N N K n k)) (n % 2 == 0) *
        S (k / BLOCK_K * (N * 2) + n * 2) +
        S (k / BLOCK_K * (N * 2) + n * 2 + 1))) 0)

/-- Uniqueness of row-major flat index decomposition. -/
theorem flat_divmod {NB q r : Nat} (hNB : 0 < NB) (hr : r < NB) :
    (q * NB + r) / NB = q ∧ (q * NB + r) % NB = r := by
  constructor
  · rw [Nat.mul_comm q NB, Nat.mul_add_div hNB, Nat.div_eq_of_lt hr, Nat.add_zero]
  · rw [Nat.mul_comm q NB, Nat.mul_add_mod, Nat.mod_eq_of_lt hr]

/-- The tile entry computed through the tile-base-shifted pointers is the
global (m0, n0) entry. -/
theorem tinygemmEntry_shift (rnd : ℚ → ℚ) (A : Nat → ℚ) (B : Nat → Nat)
    (S : Nat → ℚ) (BLOCK_N N K BK m0 n0 : Nat) (hB2 : 2 ∣ BLOCK_N) :
    tinygemmEntry rnd (fun t => A (m0 / 4 * 4 * K + t))
      (fun t => B (n0 / BLOCK_N * BLOCK_N * K / 2 + t))
      (fun t => S (n0 / BLOCK_N * BLOCK_N * 2 + t))
      K (min BLOCK_N (N - n0 / BLOCK_N * BLOCK_N) / 2) N K BK
      (m0 % 4) (n0 % BLOCK_N) =
    mmEntry rnd BLOCK_N A B S N K BK m0 n0 := by
  unfold tinygemmEntry mmEntry
  congr 1
  apply foldl_congr_mem
  intro c k _
  dsimp only
  have hA : m0 / 4 * 4 * K + (m0 % 4 * K + k) = m0 * K + k := by
    have hdm : m0 / 4 * 4 + m0 % 4 = m0 := Nat.div_add_mod' m0 4
    calc m0 / 4 * 4 * K + (m0 % 4 * K + k)
        = (m0 / 4 * 4 + m0 % 4) * K + k := by ring
      _ = m0 * K + k := by rw [hdm]
  have hdmn : n0 / BLOCK_N * BLOCK_N + n0 % BLOCK_N = n0 :=
    Nat.div_add_mod' n0 BLOCK_N
  have hmod : n0 - n0 / BLOCK_N * BLOCK_N = n0 % BLOCK_N := by omega
  have hBi : n0 / BLOCK_N * BLOCK_N * K / 2 +
      (k * (min BLOCK_N (N - n0 / BLOCK_N * BLOCK_N) / 2) + n0 % BLOCK_N / 2) =
      packedIndex BLOCK_N N K n0 k := by
    simp only [packedIndex]
    rw [hmod]
    ring
  have hS : n0 / BLOCK_N * BLOCK_N * 2 + (k / BK * N * 2 + n0 % BLOCK_N * 2) =
      k / BK * (N * 2) + n0 * 2 := by
    calc n0 / BLOCK_N * BLOCK_N * 2 + (k / BK * N * 2 + n0 % BLOCK_N * 2)
        = (n0 / BLOCK_N * BLOCK_N + n0 % BLOCK_N) * 2 + k / BK * (N * 2) := by ring
      _ = k / BK * (N * 2) + n0 * 2 := by rw [hdmn]; ring
  have hS1 : n0 / BLOCK_N * BLOCK_N * 2 + (k / BK * N * 2 + n0 % BLOCK_N * 2 + 1) =
      k / BK * (N * 2) + n0 * 2 + 1 := by
    calc n0 / BLOCK_N * BLOCK_N * 2 + (k / BK * N * 2 + n0 % BLOCK_N * 2 + 1)
        = n0 / BLOCK_N * BLOCK_N * 2 + (k / BK * N * 2 + n0 % BLOCK_N * 2) + 1 := by
          ring
      _ = k / BK * (N * 2) + n0 * 2 + 1 := by rw [hS]
  have hev : (n0 % BLOCK_N % 2 == 0) = (n0 % 2 == 0) := by
    rw [Nat.mod_mod_of_dvd n0 hB2]
  rw [hA, hBi, hS, hS1, hev]

end Int4mm

namespace Int4mm

/-- The row size of every in-range tile row lies in 1..4. -/
theorem tile_mb_size_bounds {M MB mb : Nat} (hMB : MB = (M + 4 - 1) / 4)
    (hmb : mb < MB) : 1 ≤ min 4 (M - mb * 4) ∧ min 4 (M - mb * 4) ≤ 4 := by
  subst hMB
  omega

/-- With `N` a multiple of 16 and the build's tile width, every in-range tile
column size lies in the supported set {16, 32, 48, 64}. -/
theorem tile_nb_size_bounds {N BLOCK_N NB nb : Nat}
    (hB : BLOCK_N = 32 ∨ BLOCK_N = 64)
    (hNB : NB = (N + BLOCK_N - 1) / BLOCK_N) (hnb : nb < NB) (hN : N % 16 = 0) :
    min BLOCK_N (N - nb * BLOCK_N) = 16 ∨ min BLOCK_N (N - nb * BLOCK_N) = 32 ∨
      min BLOCK_N (N - nb * BLOCK_N) = 48 ∨ min BLOCK_N (N - nb * BLOCK_N) = 64 := by
  subst hNB
  rcases hB with h | h <;> subst h <;> omega

/-- With supported tile sizes, the dispatch switch launches the specialized
tile kernel with `ldb = nb_size / 2`. -/
theorem tile_dispatch_ok (rnd : ℚ → ℚ) (mbs nbs : Nat) (A : Nat → ℚ)
    (B : Nat → Nat) (S : Nat → ℚ) (N K BK : Nat)
    (hm : 1 ≤ mbs ∧ mbs ≤ 4)
    (hn : nbs = 16 ∨ nbs = 32 ∨ nbs = 48 ∨ nbs = 64) :
    tile_dispatch rnd mbs nbs A B S N K BK =
      .ok (tinygemm_kernel rnd mbs nbs A B S K (nbs / 2) N K BK) := by
  have hm4 : mbs = 1 ∨ mbs = 2 ∨ mbs = 3 ∨ mbs = 4 := by omega
  rcases hm4 with h | h | h | h <;> subst h <;>
    rcases hn with h | h | h | h <;> subst h <;> rfl

end Int4mm

namespace Int4mm

/-- Frame property of the tile loop: if no remaining tile is the tile owning
output element (m0, n0), the loop leaves that element unchanged. -/
theorem int4pack_mm_loop_frame (rnd : ℚ → ℚ) (BLOCK_N : Nat) (A : Nat → ℚ)
    (B : Nat → Nat) (S : Nat → ℚ) (M N K BK MB NB m0 n0 : Nat)
    (hB : BLOCK_N = 32 ∨ BLOCK_N = 64) (hN : N % 16 = 0)
    (hMB : MB = (M + 4 - 1) / 4) (hNB : NB = (N + BLOCK_N - 1) / BLOCK_N)
    (hn0 : n0 < N) :
    ∀ (l : List Nat) (f : Nat) (buf : Nat → ℚ),
      f + l.length ≤ MB * NB →
      (∀ g, f ≤ g → ¬(g / NB = m0 / 4 ∧ g % NB = n0 / BLOCK_N)) →
      ∃ out, int4pack_mm_loop rnd BLOCK_N A B S M N K BK l (f / NB, f % NB) buf
          = .ok out ∧ out (m0 * N + n0) = buf (m0 * N + n0) := by
  have hB0 : 0 < BLOCK_N := by rcases hB with h | h <;> omega
  intro l
  induction l with
  | nil =>
    intro f buf _ _
    exact ⟨buf, rfl, rfl⟩
  | cons hd tl ih =>
    intro f buf hlen hT
    have hlen' : f + (tl.length + 1) ≤ MB * NB := by
      rw [List.length_cons] at hlen; exact hlen
    have hf : f < MB * NB := by omega
    have hNB0 : 0 < NB := by
      rcases Nat.eq_zero_or_pos NB with h0 | h0
      · rw [h0, Nat.mul_zero] at hf; exact absurd hf (Nat.not_lt_zero f)
      · exact h0
    have hmb : f / NB < MB := by
      rw [Nat.div_lt_iff_lt_mul hNB0]; exact hf
    have hnb : f % NB < NB := Nat.mod_lt f hNB0
    have hmsz := tile_mb_size_bounds hMB hmb
    have hnsz := tile_nb_size_bounds hB hNB hnb hN
    have hdisp := tile_dispatch_ok rnd (min 4 (M - f / NB * 4))
      (min BLOCK_N (N - f % NB * BLOCK_N))
      (fun t => A (f / NB * 4 * K + t))
      (fun t => B (f % NB * BLOCK_N * K / 2 + t))
      (fun t => S (f % NB * BLOCK_N * 2 + t)) N K BK hmsz hnsz
    simp only [int4pack_mm_loop]
    rw [hdisp]
    simp only
    rw [← hNB, data_index_step_divmod NB f hNB0]
    have hT' : ∀ g, f + 1 ≤ g → ¬(g / NB = m0 / 4 ∧ g % NB = n0 / BLOCK_N) :=
      fun g hg => hT g (by omega)
    have hlen'' : f + 1 + tl.length ≤ MB * NB := by omega
    obtain ⟨out, hout, hval⟩ := ih (f + 1) _ hlen'' hT'
    refine ⟨out, hout, ?_⟩
    rw [hval]
    apply applyWrites_of_not_mem
    intro p hp
    obtain ⟨q, hq, hpe⟩ := List.mem_map.mp hp
    rw [tinygemm_kernel_eq] at hq
    obtain ⟨m', hm', hq⟩ := List.mem_flatMap.mp hq
    obtain ⟨n', hn', hqe⟩ := List.mem_map.mp hq
    rw [List.mem_range] at hm' hn'
    subst hqe
    subst hpe
    simp only
    intro haddr
    have hcol_lt : f % NB * BLOCK_N + n' < N := by omega
    have hregroup : f / NB * 4 * N + f % NB * BLOCK_N + (m' * N + n') =
        (f / NB * 4 + m') * N + (f % NB * BLOCK_N + n') := by ring
    rw [hregroup] at haddr
    obtain ⟨hrow, hcol⟩ := mul_add_inj hcol_lt hn0 haddr
    have hm4 : m' < 4 := by omega
    have hrow' : m0 / 4 = f / NB := by
      rw [← hrow]
      exact (flat_divmod (by omega) hm4).1
    have hn'B : n' < BLOCK_N := by omega
    have hcol' : n0 / BLOCK_N = f % NB := by
      rw [← hcol]
      exact (flat_divmod hB0 hn'B).1
    exact hT f (Nat.le_refl f) ⟨hrow'.symm, hcol'.symm⟩

end Int4mm

namespace Int4mm

/-- Main extraction for the tile loop: once the loop range still contains the
tile owning output element (m0, n0), the loop succeeds and stores the global
(m0, n0) entry there. -/
theorem int4pack_mm_loop_lookup (rnd : ℚ → ℚ) (BLOCK_N : Nat) (A : Nat → ℚ)
    (B : Nat → Nat) (S : Nat → ℚ) (M N K BK MB NB m0 n0 : Nat)
    (hB : BLOCK_N = 32 ∨ BLOCK_N = 64) (hN : N % 16 = 0)
    (hMB : MB = (M + 4 - 1) / 4) (hNB : NB = (N + BLOCK_N - 1) / BLOCK_N)
    (hm0 : m0 < M) (hn0 : n0 < N) :
    ∀ (l : List Nat) (f : Nat) (buf : Nat → ℚ),
      f + l.length ≤ MB * NB →
      f ≤ m0 / 4 * NB + n0 / BLOCK_N →
      m0 / 4 * NB + n0 / BLOCK_N < f + l.length →
      ∃ out, int4pack_mm_loop rnd BLOCK_N A B S M N K BK l (f / NB, f % NB) buf
          = .ok out ∧
        out (m0 * N + n0) = mmEntry rnd BLOCK_N A B S N K BK m0 n0 := by
  have hB0 : 0 < BLOCK_N := by rcases hB with h | h <;> omega
  have hB2 : 2 ∣ BLOCK_N := by rcases hB with h | h <;> omega
  have hdmn : n0 / BLOCK_N * BLOCK_N + n0 % BLOCK_N = n0 := Nat.div_add_mod' n0 BLOCK_N
  have hrB : n0 % BLOCK_N < BLOCK_N := Nat.mod_lt n0 hB0
  intro l
  induction l with
  | nil =>
    intro f buf _ hle hlt
    rw [List.length_nil, Nat.add_zero] at hlt
    omega
  | cons hd tl ih =>
    intro f buf hlen hle hlt
    have hlen' : f + (tl.length + 1) ≤ MB * NB := by
      rw [List.length_cons] at hlen; exact hlen
    have hf : f < MB * NB := by omega
    have hNB0 : 0 < NB := by
      rcases Nat.eq_zero_or_pos NB with h0 | h0
      · rw [h0, Nat.mul_zero] at hf; exact absurd hf (Nat.not_lt_zero f)
      · exact h0
    have hmb : f / NB < MB := by
      rw [Nat.div_lt_iff_lt_mul hNB0]; exact hf
    have hnb : f % NB < NB := Nat.mod_lt f hNB0
    have hmsz := tile_mb_size_bounds hMB hmb
    have hnsz := tile_nb_size_bounds hB hNB hnb hN
    have hdisp := tile_dispatch_ok rnd (min 4 (M - f / NB * 4))
      (min BLOCK_N (N - f % NB * BLOCK_N))
      (fun t => A (f / NB * 4 * K + t))
      (fun t => B (f % NB * BLOCK_N * K / 2 + t))
      (fun t => S (f % NB * BLOCK_N * 2 + t)) N K BK hmsz hnsz
    simp only [int4pack_mm_loop]
    rw [hdisp]
    simp only
    rw [← hNB, data_index_step_divmod NB f hNB0]
    by_cases hfT : f = m0 / 4 * NB + n0 / BLOCK_N
    · have hq : n0 / BLOCK_N < NB := by
        rw [hNB]
        rcases hB with h | h <;> subst h <;> omega
      have hfd : f / NB = m0 / 4 := by rw [hfT]; exact (flat_divmod hNB0 hq).1
      have hfm : f % NB = n0 / BLOCK_N := by rw [hfT]; exact (flat_divmod hNB0 hq).2
      have hTnext : ∀ g, f + 1 ≤ g →
          ¬(g / NB = m0 / 4 ∧ g % NB = n0 / BLOCK_N) := by
        rintro g hg ⟨hg1, hg2⟩
        have hgT : g = m0 / 4 * NB + n0 / BLOCK_N := by
          have hdm := Nat.div_add_mod g NB
          rw [hg1, hg2] at hdm
          rw [← hdm, Nat.mul_comm]
        omega
      have hlen'' : f + 1 + tl.length ≤ MB * NB := by omega
      obtain ⟨out, hout, hval⟩ := int4pack_mm_loop_frame rnd BLOCK_N A B S M N K
        BK MB NB m0 n0 hB hN hMB hNB hn0 tl (f + 1) _ hlen'' hTnext
      refine ⟨out, hout, ?_⟩
      rw [hval, hfd, hfm]
      have hm_tile : m0 % 4 < min 4 (M - m0 / 4 * 4) := by omega
      have hn_tile : n0 % BLOCK_N < min BLOCK_N (N - n0 / BLOCK_N * BLOCK_N) := by
        omega
      have haddr : m0 / 4 * 4 * N + n0 / BLOCK_N * BLOCK_N +
          (m0 % 4 * N + n0 % BLOCK_N) = m0 * N + n0 := by
        have h1 : m0 / 4 * 4 + m0 % 4 = m0 := Nat.div_add_mod' m0 4
        calc m0 / 4 * 4 * N + n0 / BLOCK_N * BLOCK_N +
            (m0 % 4 * N + n0 % BLOCK_N)
            = (m0 / 4 * 4 + m0 % 4) * N +
              (n0 / BLOCK_N * BLOCK_N + n0 % BLOCK_N) := by ring
          _ = m0 * N + n0 := by rw [h1, hdmn]
      apply applyWrites_const
      · intro p hp hpe
        obtain ⟨q, hq', hpe'⟩ := List.mem_map.mp hp
        rw [tinygemm_kernel_eq] at hq'
        obtain ⟨m', hm', hq'⟩ := List.mem_flatMap.mp hq'
        obtain ⟨n', hn', hqe⟩ := List.mem_map.mp hq'
        rw [List.mem_range] at hm' hn'
        subst hqe
        subst hpe'
        simp only at hpe ⊢
        have hregroup : m0 / 4 * 4 * N + n0 / BLOCK_N * BLOCK_N + (m' * N + n') =
            (m0 / 4 * 4 + m') * N + (n0 / BLOCK_N * BLOCK_N + n') := by ring
        rw [hregroup] at hpe
        have hcol_lt : n0 / BLOCK_N * BLOCK_N + n' < N := by omega
        obtain ⟨hrow, hcol⟩ := mul_add_inj hcol_lt hn0 hpe
        have hm_eq : m' = m0 % 4 := by omega
        have hn_eq : n' = n0 % BLOCK_N := by omega
        subst hm_eq
        subst hn_eq
        exact tinygemmEntry_shift rnd A B S BLOCK_N N K BK m0 n0 hB2
      · left
        apply List.mem_map.mpr
        refine ⟨(m0 % 4 * N + n0 % BLOCK_N,
          tinygemmEntry rnd (fun t => A (m0 / 4 * 4 * K + t))
            (fun t => B (n0 / BLOCK_N * BLOCK_N * K / 2 + t))
            (fun t => S (n0 / BLOCK_N * BLOCK_N * 2 + t))
            K (min BLOCK_N (N - n0 / BLOCK_N * BLOCK_N) / 2) N K BK
            (m0 % 4) (n0 % BLOCK_N)),
          tinygemm_mem rnd _ _ _ _ _ K _ N K BK (m0 % 4) (n0 % BLOCK_N)
            hm_tile hn_tile, ?_⟩
        simp only
        rw [haddr, tinygemmEntry_shift rnd A B S BLOCK_N N K BK m0 n0 hB2]
    · have hlt' : f < m0 / 4 * NB + n0 / BLOCK_N := Nat.lt_of_le_of_ne hle hfT
      have harr : m0 / 4 * NB + n0 / BLOCK_N < f + 1 + tl.length := by
        rw [List.length_cons] at hlt
        omega
      have hlen'' : f + 1 + tl.length ≤ MB * NB := by omega
      obtain ⟨out, hout, hval⟩ := ih (f + 1) _ hlen''
        (Nat.succ_le_of_lt hlt') harr
      exact ⟨out, hout, hval⟩

end Int4mm

namespace Int4mm

/-- Output extraction for `int4pack_mm_kernel`: with a supported build width
and N a multiple of 16, the kernel succeeds and every output element
(m0, n0) receives the global (m0, n0) entry. -/
theorem int4pack_mm_kernel_lookup (rnd : ℚ → ℚ) (BLOCK_N : Nat) (A : Nat → ℚ)
    (B : Nat → Nat) (S : Nat → ℚ) (M N K qGroupSize : Nat) (c0 : Nat → ℚ)
    (hB : BLOCK_N = 32 ∨ BLOCK_N = 64) (hN : N % 16 = 0)
    (m0 n0 : Nat) (hm0 : m0 < M) (hn0 : n0 < N) :
    ∃ out, int4pack_mm_kernel rnd BLOCK_N A B S M N K qGroupSize c0 = .ok out ∧
      out (m0 * N + n0) = mmEntry rnd BLOCK_N A B S N K qGroupSize m0 n0 := by
  have hmbT : m0 / 4 < (M + 4 - 1) / 4 := by omega
  have hnbT : n0 / BLOCK_N < (N + BLOCK_N - 1) / BLOCK_N := by
    rcases hB with h | h <;> subst h <;> omega
  have hT : m0 / 4 * ((N + BLOCK_N - 1) / BLOCK_N) + n0 / BLOCK_N <
      (M + 4 - 1) / 4 * ((N + BLOCK_N - 1) / BLOCK_N) := mul_add_lt hmbT hnbT
  have hmain := int4pack_mm_loop_lookup rnd BLOCK_N A B S M N K qGroupSize
    ((M + 4 - 1) / 4) ((N + BLOCK_N - 1) / BLOCK_N) m0 n0 hB hN rfl rfl hm0 hn0
    (List.range ((M + 4 - 1) / 4 * ((N + BLOCK_N - 1) / BLOCK_N))) 0 c0
    (by rw [List.length_range, Nat.zero_add])
    (Nat.zero_le _)
    (by rw [List.length_range, Nat.zero_add]; exact hT)
  simp only [int4pack_mm_kernel, data_index_init]
  exact hmain

end Int4mm

namespace Int4mm

set_option maxRecDepth 4000

/-- Packing two in-range nibbles gives `16 * high + low`. -/
theorem nibble_pack_eval : ∀ a < 16, ∀ b < 16,
    (a <<< 4 ||| b) % 256 = 16 * a + b := by decide

/-- Unpacking a byte built from two in-range nibbles recovers them. -/
theorem nibble_unpack_eval : ∀ a < 16, ∀ b < 16,
    (16 * a + b) &&& 15 = b ∧ (16 * a + b) >>> 4 = a := by decide

/-- The dequantization table sends nibble `u < 16` to `u - 8`. -/
theorem lut16_eq : ∀ u < 16, lut16 u = (u : ℚ) - 8 := by
  intro u hu
  interval_cases u <;> norm_num [lut16]

/-- For stored values in the nibble range, the packed byte is
`16 * high + low`. -/
theorem packBytePair_eq (v1 v0 : Int) (h1 : 0 ≤ v1) (h1' : v1 < 16)
    (h0 : 0 ≤ v0) (h0' : v0 < 16) :
    packBytePair v1 v0 = 16 * v1.toNat + v0.toNat := by
  have hb1 : toByte v1 = v1.toNat := by
    unfold toByte
    rw [Int.emod_eq_of_lt h1 (by omega)]
  have hb0 : toByte v0 = v0.toNat := by
    unfold toByte
    rw [Int.emod_eq_of_lt h0 (by omega)]
  unfold packBytePair
  rw [hb1, hb0]
  exact nibble_pack_eval v1.toNat (by omega) v0.toNat (by omega)

/-- Folding a constant increment over a range. -/
theorem foldl_add_const (n : Nat) (x : ℚ) :
    ∀ i : ℚ, (List.range n).foldl (fun c _ => c + x) i = i + n * x := by
  induction n with
  | zero => intro i; simp
  | succ n ih =>
    intro i
    rw [List.range_succ, List.foldl_append, ih i]
    simp only [List.foldl_cons, List.foldl_nil]
    push_cast
    ring

end Int4mm

namespace Int4mm

/-- C1 (counterexample): the claimed pack/unpack round-trip fails as stated.
For the all-zero weight matrix W (all values in [-8, 7]) with N = 32, K = 1,
the kernel's own int4-to-float conversion applied to the byte it reads for
position (n, k) = (0, 0) of pack(W) yields -8, not W[0,0] = 0. -/
theorem pack_unpack_roundtrip_counterexample :
    convert_int4_to_float
      (weight_to_int4pack_kernel (fun _ => (0 : Int)) 32 1 (packedIndex 32 32 1 0 0))
      (0 % 2 == 0) = -8 ∧ (-8 : ℚ) ≠ 0 := by
  constructor
  · rw [weight_to_int4pack_read (fun _ => (0 : Int)) 32 1 0 0 (by norm_num)
      (by norm_num) (by norm_num)]
    rfl
  · norm_num

/-- C1 (amended): the conversion the kernel applies to a packed nibble is the
affine map `stored value - 8`, not the identity: for every weight matrix with
stored values in the nibble range [0, 15] (the kernel's storage convention),
every even N, and every position (n, k), the converted nibble for position
(n, k) of pack(W) equals W[n, k] - 8.  In particular the logical int4 value
v in [-8, 7] round-trips exactly when it is stored as v + 8. -/
theorem pack_unpack_roundtrip_amended (w : Nat → Int) (N K n k : Nat)
    (hN : N % 2 = 0) (hn : n < N) (hk : k < K)
    (hw : ∀ t, 0 ≤ w t ∧ w t < 16) :
    convert_int4_to_float
      (weight_to_int4pack_kernel w N K (packedIndex 32 N K n k))
      (n % 2 == 0) = (w (n * K + k) : ℚ) - 8 := by
  have h0 := hw (2 * (n / 2) * K + k)
  have h1 := hw ((2 * (n / 2) + 1) * K + k)
  rw [weight_to_int4pack_read w N K n k hN hn hk]
  rw [packBytePair_eq _ _ h1.1 h1.2 h0.1 h0.2]
  have hlt0 : (w (2 * (n / 2) * K + k)).toNat < 16 := by omega
  have hlt1 : (w ((2 * (n / 2) + 1) * K + k)).toNat < 16 := by omega
  have hbits := nibble_unpack_eval _ hlt1 _ hlt0
  unfold convert_int4_to_float
  by_cases hpar : n % 2 = 0
  · have hbeq : (n % 2 == 0) = true := by simp [hpar]
    rw [hbeq, if_pos rfl, hbits.1, lut16_eq _ hlt0]
    have hidx : 2 * (n / 2) * K + k = n * K + k := by
      have h2 : 2 * (n / 2) = n := by omega
      rw [h2]
    rw [hidx]
    have hcast : (((w (n * K + k)).toNat : ℚ)) = ((w (n * K + k) : ℚ)) := by
      have := Int.toNat_of_nonneg (hidx ▸ h0.1)
      exact_mod_cast congrArg (fun z : Int => (z : ℚ)) this
    rw [hcast]
  · have hbeq : (n % 2 == 0) = false := by simp [hpar]
    rw [hbeq]
    simp only [Bool.false_eq_true, if_false]
    rw [hbits.2, lut16_eq _ hlt1]
    have hidx : (2 * (n / 2) + 1) * K + k = n * K + k := by
      have h2 : 2 * (n / 2) + 1 = n := by omega
      rw [h2]
    rw [hidx]
    have hcast : (((w (n * K + k)).toNat : ℚ)) = ((w (n * K + k) : ℚ)) := by
      have := Int.toNat_of_nonneg (hidx ▸ h1.1)
      exact_mod_cast congrArg (fun z : Int => (z : ℚ)) this
    rw [hcast]

/-- C1 (witness for the amended theorem): at N = 2, K = 1, W = [[9], [3]]
the converted nibble for position (0, 0) is 9 - 8 = 1. -/
theorem pack_unpack_roundtrip_amended_witness :
    (2 % 2 = 0 ∧ (0 : Nat) < 2 ∧ (0 : Nat) < 1 ∧
      (∀ t, 0 ≤ (fun u : Nat => if u = 0 then (9 : Int) else 3) t ∧
        (fun u : Nat => if u = 0 then (9 : Int) else 3) t < 16)) ∧
    convert_int4_to_float
      (weight_to_int4pack_kernel (fun u : Nat => if u = 0 then (9 : Int) else 3)
        2 1 (packedIndex 32 2 1 0 0))
      (0 % 2 == 0) =
      ((fun u : Nat => if u = 0 then (9 : Int) else 3) (0 * 1 + 0) : ℚ) - 8 := by
  refine ⟨⟨by norm_num, by norm_num, by norm_num, ?_⟩, ?_⟩
  · intro t
    by_cases h : t = 0 <;> simp [h]
  · exact pack_unpack_roundtrip_amended (fun u : Nat => if u = 0 then (9 : Int) else 3)
      2 1 0 0 (by norm_num) (by norm_num) (by norm_num)
      (fun t => by by_cases h : t = 0 <;> simp [h])

end Int4mm

namespace Int4mm

/-- C4 (counterexample): the claimed lane pairing at spacing BLOCK_N / 4 does
not hold.  With lane values W[n] = n / 16 (64-wide, K = 1), pairing lane i
with lane i + 16 (low nibble = lane i) would produce a byte 16 * 1 + 0 = 16
for i < 16; no byte of the packed buffer equals 16 — byte 0 instead pairs
lane 0 with lane 32 (value 16 * 2 + 0 = 32).  Likewise for the 32-wide AVX2
packer with W[n] = n / 8: no byte pairs lane i with lane i + 8. -/
theorem lane_pairing_counterexample :
    (∀ p < 32,
      weight_to_int4pack_kernel_avx512 (fun t => ((t / 16 : Nat) : Int)) 64 1 p ≠ 16) ∧
    weight_to_int4pack_kernel_avx512 (fun t => ((t / 16 : Nat) : Int)) 64 1 0 = 32 ∧
    (∀ p < 16,
      weight_to_int4pack_kernel_avx2 (fun t => ((t / 8 : Nat) : Int)) 32 1 p ≠ 16) ∧
    weight_to_int4pack_kernel_avx2 (fun t => ((t / 8 : Nat) : Int)) 32 1 0 = 32 := by
  exact ⟨by decide, by decide, by decide, by decide⟩

/-- C4 (amended): for a full-width block the packer pairs column-lane `t`
with column-lane `t + BLOCK_N / 2` into one byte — lane t with lane t + 32
for 64-wide tiles, lane d with lane d + 16 for 32-wide tiles — with the
first lane in the low nibble and the second lane in the high nibble. -/
theorem lane_pairing_amended (w : Nat → Int) (N K : Nat)
    (hw : ∀ t, 0 ≤ w t ∧ w t < 16) :
    (∀ i k t, min 64 (N - i * 64) = 64 → k < K → t < 32 →
      weight_to_int4pack_kernel_avx512 w N K (i * (K * 32) + (k * 32 + t)) =
        16 * (w (i * 64 * K + (t + 32) * K + k)).toNat +
          (w (i * 64 * K + t * K + k)).toNat) ∧
    (∀ i k d, min 32 (N - i * 32) = 32 → k < K → d < 16 →
      weight_to_int4pack_kernel_avx2 w N K (i * (K * 16) + (k * 16 + d)) =
        16 * (w (i * 32 * K + (d + 16) * K + k)).toNat +
          (w (i * 32 * K + (d + 0) * K + k)).toNat) := by
  constructor
  · intro i k t hfull hk ht
    rw [weight_to_int4pack_avx512_read_full w N K i k t hfull hk ht]
    exact packBytePair_eq _ _ (hw _).1 (hw _).2 (hw _).1 (hw _).2
  · intro i k d hfull hk hd
    rw [weight_to_int4pack_avx2_read_full w N K i k d hfull hk hd]
    exact packBytePair_eq _ _ (hw _).1 (hw _).2 (hw _).1 (hw _).2

/-- C4 (witness): at the constant weight 5, N = 64, K = 1, the byte at
offset 0 of the full AVX512 block is 16 * 5 + 5. -/
theorem lane_pairing_amended_witness :
    (∀ t : Nat, 0 ≤ (fun _ : Nat => (5 : Int)) t ∧
      (fun _ : Nat => (5 : Int)) t < 16) ∧
    weight_to_int4pack_kernel_avx512 (fun _ => (5 : Int)) 64 1
        (0 * (1 * 32) + (0 * 32 + 0)) =
      16 * ((fun _ : Nat => (5 : Int)) (0 * 64 * 1 + (0 + 32) * 1 + 0)).toNat +
        ((fun _ : Nat => (5 : Int)) (0 * 64 * 1 + 0 * 1 + 0)).toNat := by
  refine ⟨fun t => by norm_num, ?_⟩
  exact (lane_pairing_amended (fun _ => (5 : Int)) 64 1
      (fun t => by norm_num)).1 0 0 0 (by decide) (by decide) (by decide)

end Int4mm

namespace Int4mm

/-- C2: reference equivalence.  For every supported M, N, K and group_size,
the output of `int4pack_mm_kernel` at element (m, n) equals the naive
triple-loop reference `C[m,n] = sum_k A[m,k] * (W[k,n] * scale + zero)` with
the (scale, zero) pair of group `k / group_size` and column n, where W is the
int4 value the kernel's own decode assigns to the packed buffer.  In the
exact-arithmetic model the equality is exact (rounding-order differences do
not arise). -/
theorem int4pack_mm_matches_reference (rnd : ℚ → ℚ) (BLOCK_N : Nat)
    (A : Nat → ℚ) (B : Nat → Nat) (S : Nat → ℚ) (M N K group_size : Nat)
    (c0 : Nat → ℚ) (hB : BLOCK_N = 32 ∨ BLOCK_N = 64) (hN : N % 16 = 0)
    (m n : Nat) (hm : m < M) (hn : n < N) :
    ∃ out, int4pack_mm_kernel rnd BLOCK_N A B S M N K group_size c0 = .ok out ∧
      out (m * N + n) =
        naiveRef rnd A (decodeW B BLOCK_N N K) S N K group_size m n := by
  obtain ⟨out, hout, hval⟩ := int4pack_mm_kernel_lookup rnd BLOCK_N A B S M N K
    group_size c0 hB hN m n hm hn
  refine ⟨out, hout, ?_⟩
  rw [hval]
  unfold mmEntry naiveRef decodeW
  congr 1
  exact foldl_add_eq_sum K (fun k =>
    A (m * K + k) *
      (convert_int4_to_float (B (packedIndex BLOCK_N N K n k)) (n % 2 == 0) *
        S (k / group_size * (N * 2) + n * 2) +
        S (k / group_size * (N * 2) + n * 2 + 1)))

/-- C2 (witness): a concrete instance with M = 1, N = 16, K = 2. -/
theorem int4pack_mm_matches_reference_witness :
    ((32 : Nat) = 32 ∨ (32 : Nat) = 64) ∧ (16 : Nat) % 16 = 0 ∧ (0 : Nat) < 1 ∧
      (0 : Nat) < 16 ∧
    (∃ out, int4pack_mm_kernel id 32 (fun _ => 1) (fun _ => 0) (fun _ => 1)
        1 16 2 2 (fun _ => 0) = .ok out ∧
      out (0 * 16 + 0) =
        naiveRef id (fun _ => 1) (decodeW (fun _ => 0) 32 16 2) (fun _ => 1)
          16 2 2 0 0) := by
  refine ⟨Or.inl rfl, by norm_num, by norm_num, by norm_num, ?_⟩
  exact int4pack_mm_matches_reference id 32 (fun _ => 1) (fun _ => 0)
    (fun _ => 1) 1 16 2 2 (fun _ => 0) (Or.inl rfl) (by norm_num) 0 0
    (by norm_num) (by norm_num)

end Int4mm

namespace Int4mm

/-- C3 (counterexample): the concrete scenarios fail as stated.  With
M = 1, N = 16, K = 32, group_size = 32, scale = 1, zero = 0 and activations
all 1, packing the all-zero weight matrix and multiplying yields output
elements -256 (each zero nibble dequantizes to -8), not 0; packing the
all-7 weight matrix yields -32 (nibble 7 dequantizes to -1), not 224. -/
theorem concrete_scenarios_counterexample :
    (∃ out, int4pack_mm_kernel id 32 (fun _ => 1)
        (weight_to_int4pack_kernel (fun _ => (0 : Int)) 16 32)
        (fun t => if t % 2 = 0 then 1 else 0) 1 16 32 32 (fun _ => 0) = .ok out ∧
      out (0 * 16 + 0) = -256 ∧ (-256 : ℚ) ≠ 0) ∧
    (∃ out, int4pack_mm_kernel id 32 (fun _ => 1)
        (weight_to_int4pack_kernel (fun _ => (7 : Int)) 16 32)
        (fun t => if t % 2 = 0 then 1 else 0) 1 16 32 32 (fun _ => 0) = .ok out ∧
      out (0 * 16 + 0) = -32 ∧ (-32 : ℚ) ≠ 224) := by
  constructor
  · obtain ⟨out, hout, hval⟩ := int4pack_mm_kernel_lookup id 32 (fun _ => 1)
      (weight_to_int4pack_kernel (fun _ => (0 : Int)) 16 32)
      (fun t => if t % 2 = 0 then 1 else 0) 1 16 32 32 (fun _ => 0)
      (Or.inl rfl) (by norm_num) 0 0 (by norm_num) (by norm_num)
    refine ⟨out, hout, ?_, by norm_num⟩
    rw [hval]
    unfold mmEntry
    rw [id_eq]
    refine Eq.trans (foldl_congr_mem _ _ (fun (c : ℚ) (_ : Nat) => c + -8) 0 ?_) ?_
    · intro c k hk
      rw [List.mem_range] at hk
      have hk32 : k / 32 = 0 := by omega
      rw [weight_to_int4pack_read (fun _ => (0 : Int)) 16 32 0 k (by norm_num)
        (by norm_num) hk, hk32]
      simp only []
      rw [show packBytePair 0 0 = 0 from rfl,
        show convert_int4_to_float 0 (0 % 2 == 0) = -8 from rfl]
      norm_num
    · rw [foldl_add_const]
      norm_num
  · obtain ⟨out, hout, hval⟩ := int4pack_mm_kernel_lookup id 32 (fun _ => 1)
      (weight_to_int4pack_kernel (fun _ => (7 : Int)) 16 32)
      (fun t => if t % 2 = 0 then 1 else 0) 1 16 32 32 (fun _ => 0)
      (Or.inl rfl) (by norm_num) 0 0 (by norm_num) (by norm_num)
    refine ⟨out, hout, ?_, by norm_num⟩
    rw [hval]
    unfold mmEntry
    rw [id_eq]
    refine Eq.trans (foldl_congr_mem _ _ (fun (c : ℚ) (_ : Nat) => c + -1) 0 ?_) ?_
    · intro c k hk
      rw [List.mem_range] at hk
      have hk32 : k / 32 = 0 := by omega
      rw [weight_to_int4pack_read (fun _ => (7 : Int)) 16 32 0 k (by norm_num)
        (by norm_num) hk, hk32]
      simp only []
      rw [show packBytePair 7 7 = 119 from rfl,
        show convert_int4_to_float 119 (0 % 2 == 0) = -1 from rfl]
      norm_num
    · rw [foldl_add_const]
      norm_num

end Int4mm

namespace Int4mm

/-- C3 (amended): the scenarios hold once the logical int4 values are stored
in the kernel's offset convention (stored nibble u dequantizes to u - 8).
With M = 1, N = 16, K = 32, group_size = 32, scale = 1, zero = 0: all stored
weights 8 (logical value 0) give an all-zero output, and all stored weights
15 (logical value 7) with all activations 1 give every output element
7 * 32 = 224. -/
theorem concrete_scenarios_amended :
    (∀ n < 16, ∃ out, int4pack_mm_kernel id 32 (fun _ => 1)
        (weight_to_int4pack_kernel (fun _ => (8 : Int)) 16 32)
        (fun t => if t % 2 = 0 then 1 else 0) 1 16 32 32 (fun _ => 0) = .ok out ∧
      out (0 * 16 + n) = 0) ∧
    (∀ n < 16, ∃ out, int4pack_mm_kernel id 32 (fun _ => 1)
        (weight_to_int4pack_kernel (fun _ => (15 : Int)) 16 32)
        (fun t => if t % 2 = 0 then 1 else 0) 1 16 32 32 (fun _ => 0) = .ok out ∧
      out (0 * 16 + n) = 224) := by
  have hconv8 : ∀ b : Bool, convert_int4_to_float 136 b = 0 := by
    intro b; cases b <;> rfl
  have hconv15 : ∀ b : Bool, convert_int4_to_float 255 b = 7 := by
    intro b; cases b <;> rfl
  constructor
  · intro n hn
    obtain ⟨out, hout, hval⟩ := int4pack_mm_kernel_lookup id 32 (fun _ => 1)
      (weight_to_int4pack_kernel (fun _ => (8 : Int)) 16 32)
      (fun t => if t % 2 = 0 then 1 else 0) 1 16 32 32 (fun _ => 0)
      (Or.inl rfl) (by norm_num) 0 n (by norm_num) hn
    refine ⟨out, hout, ?_⟩
    rw [hval]
    unfold mmEntry
    rw [id_eq]
    refine Eq.trans (foldl_congr_mem _ _ (fun (c : ℚ) (_ : Nat) => c + 0) 0 ?_) ?_
    · intro c k hk
      rw [List.mem_range] at hk
      have hk32 : k / 32 = 0 := by omega
      rw [weight_to_int4pack_read (fun _ => (8 : Int)) 16 32 n k (by norm_num)
        hn hk, hk32]
      simp only []
      rw [show packBytePair 8 8 = 136 from rfl, hconv8]
      have hS0 : (0 * (16 * 2) + n * 2) % 2 = 0 := by omega
      rw [if_pos hS0, if_neg (by omega)]
      norm_num
    · rw [foldl_add_const]
      norm_num
  · intro n hn
    obtain ⟨out, hout, hval⟩ := int4pack_mm_kernel_lookup id 32 (fun _ => 1)
      (weight_to_int4pack_kernel (fun _ => (15 : Int)) 16 32)
      (fun t => if t % 2 = 0 then 1 else 0) 1 16 32 32 (fun _ => 0)
      (Or.inl rfl) (by norm_num) 0 n (by norm_num) hn
    refine ⟨out, hout, ?_⟩
    rw [hval]
    unfold mmEntry
    rw [id_eq]
    refine Eq.trans (foldl_congr_mem _ _ (fun (c : ℚ) (_ : Nat) => c + 7) 0 ?_) ?_
    · intro c k hk
      rw [List.mem_range] at hk
      have hk32 : k / 32 = 0 := by omega
      rw [weight_to_int4pack_read (fun _ => (15 : Int)) 16 32 n k (by norm_num)
        hn hk, hk32]
      simp only []
      rw [show packBytePair 15 15 = 255 from rfl, hconv15]
      have hS0 : (0 * (16 * 2) + n * 2) % 2 = 0 := by omega
      rw [if_pos hS0, if_neg (by omega)]
      norm_num
    · rw [foldl_add_const]
      norm_num

/-- C3 (witness for the amended theorem): output element 0 of both amended
scenarios. -/
theorem concrete_scenarios_amended_witness :
    (0 : Nat) < 16 ∧
    (∃ out, int4pack_mm_kernel id 32 (fun _ => 1)
        (weight_to_int4pack_kernel (fun _ => (8 : Int)) 16 32)
        (fun t => if t % 2 = 0 then 1 else 0) 1 16 32 32 (fun _ => 0) = .ok out ∧
      out (0 * 16 + 0) = 0) ∧
    (∃ out, int4pack_mm_kernel id 32 (fun _ => 1)
        (weight_to_int4pack_kernel (fun _ => (15 : Int)) 16 32)
        (fun t => if t % 2 = 0 then 1 else 0) 1 16 32 32 (fun _ => 0) = .ok out ∧
      out (0 * 16 + 0) = 224) :=
  ⟨by norm_num, concrete_scenarios_amended.1 0 (by norm_num),
    concrete_scenarios_amended.2 0 (by norm_num)⟩

end Int4mm

namespace Int4mm

/-- C5: tile grid mapping.  `data_index_init` sends flat index i to row-major
divmod (i / NB, i % NB), and iterating `data_index_step` c times from the
initial state reaches exactly (c / NB, c % NB): consecutive flat indices
advance nb first and carry into mb on overflow.  (The sizes
`mb_size = min(BLOCK_M, M - mb*BLOCK_M)` and
`nb_size = min(BLOCK_N, N - nb*BLOCK_N)` are the literal per-tile
computation of `int4pack_mm_loop`.) -/
theorem tile_grid_mapping (NB : Nat) (hNB : 0 < NB) (i c : Nat) :
    data_index_init i NB = (i / NB, i % NB) ∧
    (fun p => data_index_step p NB)^[c] (data_index_init 0 NB) =
      (c / NB, c % NB) := by
  refine ⟨rfl, ?_⟩
  induction c with
  | zero => rfl
  | succ c ih =>
    rw [Function.iterate_succ_apply', ih]
    exact data_index_step_divmod NB c hNB

/-- C5 (witness): NB = 3, i = 7, c = 5. -/
theorem tile_grid_mapping_witness :
    (0 : Nat) < 3 ∧
    (data_index_init 7 3 = (7 / 3, 7 % 3) ∧
      (fun p => data_index_step p 3)^[5] (data_index_init 0 3) =
        (5 / 3, 5 % 3)) :=
  ⟨by norm_num, tile_grid_mapping 3 (by norm_num) 7 5⟩

end Int4mm

namespace Int4mm

/-- The `nb_size` switch falls to its `TORCH_CHECK` default, with the message
naming the size, for every unsupported column size. -/
theorem launch_tinygemm_nb_size_error (rnd : ℚ → ℚ) (MB_SIZE nb_size : Nat)
    (A : Nat → ℚ) (B : Nat → Nat) (S : Nat → ℚ) (N K BK : Nat)
    (h : ¬(nb_size = 16 ∨ nb_size = 32 ∨ nb_size = 48 ∨ nb_size = 64)) :
    launch_tinygemm_nb_size rnd MB_SIZE nb_size A B S N K BK =
      .error ("Unsupported n block size: " ++ toString nb_size) := by
  unfold launch_tinygemm_nb_size
  split <;> first | rfl | (exfalso; apply h; omega)

/-- The `mb_size` switch falls to its `TORCH_CHECK` default, with the message
naming the size, for every unsupported row size. -/
theorem tile_dispatch_error_m (rnd : ℚ → ℚ) (mb_size nb_size : Nat)
    (A : Nat → ℚ) (B : Nat → Nat) (S : Nat → ℚ) (N K BK : Nat)
    (h : ¬(mb_size = 1 ∨ mb_size = 2 ∨ mb_size = 3 ∨ mb_size = 4)) :
    tile_dispatch rnd mb_size nb_size A B S N K BK =
      .error ("Unsupported m block size: " ++ toString mb_size) := by
  unfold tile_dispatch
  split <;> first | rfl | (exfalso; apply h; omega)

/-- With a supported row size the dispatch enters the `nb_size` switch. -/
theorem tile_dispatch_to_launch (rnd : ℚ → ℚ) (mb_size nb_size : Nat)
    (A : Nat → ℚ) (B : Nat → Nat) (S : Nat → ℚ) (N K BK : Nat)
    (h : mb_size = 1 ∨ mb_size = 2 ∨ mb_size = 3 ∨ mb_size = 4) :
    tile_dispatch rnd mb_size nb_size A B S N K BK =
      launch_tinygemm_nb_size rnd mb_size nb_size A B S N K BK := by
  rcases h with h | h | h | h <;> subst h <;> rfl

/-- When N is not a multiple of 16, the tile loop reaches the final column
tile of its first row and aborts with the configuration error: no output
value is produced. -/
theorem int4pack_mm_loop_error (rnd : ℚ → ℚ) (BLOCK_N : Nat) (A : Nat → ℚ)
    (B : Nat → Nat) (S : Nat → ℚ) (M N K BK MB NB : Nat)
    (hB : BLOCK_N = 32 ∨ BLOCK_N = 64)
    (hMB : MB = (M + 4 - 1) / 4) (hNB : NB = (N + BLOCK_N - 1) / BLOCK_N)
    (hbad : N % 16 ≠ 0) (hN0 : 0 < N) :
    ∀ (l : List Nat) (f : Nat) (buf : Nat → ℚ),
      f + l.length ≤ MB * NB →
      f ≤ NB - 1 → NB - 1 < f + l.length →
      ∀ out, int4pack_mm_loop rnd BLOCK_N A B S M N K BK l (f / NB, f % NB) buf
        ≠ .ok out := by
  have hNB0 : 0 < NB := by
    rcases hB with h | h <;> subst h <;> subst hNB <;> omega
  intro l
  induction l with
  | nil =>
    intro f buf hlen hle hlt
    rw [List.length_nil, Nat.add_zero] at hlt
    omega
  | cons hd tl ih =>
    intro f buf hlen hle hlt
    rw [List.length_cons] at hlen hlt
    have hf : f < MB * NB := by omega
    have hmb : f / NB < MB := by rw [Nat.div_lt_iff_lt_mul hNB0]; exact hf
    have hmsz := tile_mb_size_bounds hMB hmb
    have hfNB : f < NB := by omega
    have hfm : f % NB = f := Nat.mod_eq_of_lt hfNB
    by_cases hend : f = NB - 1
    · have hnbs_bad : ¬(min BLOCK_N (N - f % NB * BLOCK_N) = 16 ∨
          min BLOCK_N (N - f % NB * BLOCK_N) = 32 ∨
          min BLOCK_N (N - f % NB * BLOCK_N) = 48 ∨
          min BLOCK_N (N - f % NB * BLOCK_N) = 64) := by
        rw [hfm, hend]
        rcases hB with h | h <;> subst h <;> subst hNB <;> omega
      simp only [int4pack_mm_loop]
      rw [tile_dispatch_to_launch _ _ _ _ _ _ _ _ _ (by omega),
        launch_tinygemm_nb_size_error _ _ _ _ _ _ _ _ _ hnbs_bad]
      simp only
      intro out hcontra
      exact Except.noConfusion hcontra
    · have hnsz : (min BLOCK_N (N - f % NB * BLOCK_N) = 16 ∨
          min BLOCK_N (N - f % NB * BLOCK_N) = 32 ∨
          min BLOCK_N (N - f % NB * BLOCK_N) = 48 ∨
          min BLOCK_N (N - f % NB * BLOCK_N) = 64) := by
        rw [hfm]
        rcases hB with h | h <;> subst h <;> subst hNB <;> omega
      have hdisp := tile_dispatch_ok rnd (min 4 (M - f / NB * 4))
        (min BLOCK_N (N - f % NB * BLOCK_N))
        (fun t => A (f / NB * 4 * K + t))
        (fun t => B (f % NB * BLOCK_N * K / 2 + t))
        (fun t => S (f % NB * BLOCK_N * 2 + t)) N K BK hmsz hnsz
      simp only [int4pack_mm_loop]
      rw [hdisp]
      simp only
      rw [← hNB, data_index_step_divmod NB f hNB0]
      exact ih (f + 1) _ (by omega) (by omega) (by omega)

/-- C6: fail-fast on unsupported tile shapes.  The dispatch raises the
configuration error naming the invalid size: the `nb_size` switch errors for
every column size outside {16, 32, 48, 64} (reached whenever the row size is
supported), and the `mb_size` switch errors for every row size outside
{1, 2, 3, 4}.  When such a tile arises (N not a multiple of 16), the whole
kernel invocation returns the error and produces no output value. -/
theorem unsupported_tile_shape_fails (rnd : ℚ → ℚ) (mb_size nb_size : Nat)
    (A : Nat → ℚ) (B : Nat → Nat) (S : Nat → ℚ) (N K BK : Nat) :
    ((mb_size = 1 ∨ mb_size = 2 ∨ mb_size = 3 ∨ mb_size = 4) →
      ¬(nb_size = 16 ∨ nb_size = 32 ∨ nb_size = 48 ∨ nb_size = 64) →
      tile_dispatch rnd mb_size nb_size A B S N K BK =
        .error ("Unsupported n block size: " ++ toString nb_size)) ∧
    (¬(mb_size = 1 ∨ mb_size = 2 ∨ mb_size = 3 ∨ mb_size = 4) →
      tile_dispatch rnd mb_size nb_size A B S N K BK =
        .error ("Unsupported m block size: " ++ toString mb_size)) ∧
    (∀ (BLOCK_N M : Nat) (c0 : Nat → ℚ), (BLOCK_N = 32 ∨ BLOCK_N = 64) →
      0 < M → N % 16 ≠ 0 →
      ∀ out, int4pack_mm_kernel rnd BLOCK_N A B S M N K BK c0 ≠ .ok out) := by
  refine ⟨?_, ?_, ?_⟩
  · intro hm hn
    rw [tile_dispatch_to_launch _ _ _ _ _ _ _ _ _ hm]
    exact launch_tinygemm_nb_size_error _ _ _ _ _ _ _ _ _ hn
  · exact tile_dispatch_error_m rnd mb_size nb_size A B S N K BK
  · intro BLOCK_N M c0 hB hM hbad out
    have hN0 : 0 < N := by omega
    have hMB0 : 0 < (M + 4 - 1) / 4 := by omega
    have hNB0 : 0 < (N + BLOCK_N - 1) / BLOCK_N := by
      rcases hB with h | h <;> subst h <;> omega
    have hNBle : (N + BLOCK_N - 1) / BLOCK_N ≤
        (M + 4 - 1) / 4 * ((N + BLOCK_N - 1) / BLOCK_N) :=
      Nat.le_mul_of_pos_left _ hMB0
    have herr := int4pack_mm_loop_error rnd BLOCK_N A B S M N K BK
      ((M + 4 - 1) / 4) ((N + BLOCK_N - 1) / BLOCK_N) hB rfl rfl hbad hN0
      (List.range ((M + 4 - 1) / 4 * ((N + BLOCK_N - 1) / BLOCK_N))) 0 c0
      (by rw [List.length_range, Nat.zero_add])
      (Nat.zero_le _)
      (by rw [List.length_range, Nat.zero_add]; omega)
    simp only [int4pack_mm_kernel, data_index_init]
    exact herr out

/-- C6 (witness): nb_size 8 and mb_size 5 error with the naming messages;
the N = 8 invocation as a whole returns no output. -/
theorem unsupported_tile_shape_fails_witness :
    tile_dispatch id 1 8 (fun _ => 0) (fun _ => 0) (fun _ => 0) 8 4 32 =
      .error ("Unsupported n block size: " ++ toString (8 : Nat)) ∧
    tile_dispatch id 5 16 (fun _ => 0) (fun _ => 0) (fun _ => 0) 8 4 32 =
      .error ("Unsupported m block size: " ++ toString (5 : Nat)) ∧
    ∀ out, int4pack_mm_kernel id 32 (fun _ => 0) (fun _ => 0) (fun _ => 0)
      1 8 4 32 (fun _ => 0) ≠ .ok out :=
  ⟨(unsupported_tile_shape_fails id 1 8 (fun _ => 0) (fun _ => 0) (fun _ => 0)
      8 4 32).1 (by omega) (by omega),
   (unsupported_tile_shape_fails id 5 16 (fun _ => 0) (fun _ => 0) (fun _ => 0)
      8 4 32).2.1 (by omega),
   fun out => (unsupported_tile_shape_fails id 5 16 (fun _ => 0) (fun _ => 0)
      (fun _ => 0) 8 4 32).2.2 32 1 (fun _ => 0) (Or.inl rfl) (by omega)
      (by omega) out⟩

end Int4mm

namespace Int4mm

/-- C7: group-boundary scale/zero refresh.  For power-of-two block sizes (the
supported group sizes 32, 64, 128, 256), `is_block_start(k, BLOCK_K)` holds
exactly at the iterations with k mod BLOCK_K = 0 — the reload points of the
vectorized K loops — and the (scale, zero) pair applied at reduction index k
is the pair stored for group ⌊k / group_size⌋ of column n. -/
theorem scale_zero_group_refresh (rnd : ℚ → ℚ) (BLOCK_N : Nat) (A : Nat → ℚ)
    (B : Nat → Nat) (S : Nat → ℚ) (M N K group_size : Nat) (c0 : Nat → ℚ)
    (k0 BLOCK_SIZE e : Nat) (hpow : BLOCK_SIZE = 2 ^ e)
    (hB : BLOCK_N = 32 ∨ BLOCK_N = 64) (hN : N % 16 = 0)
    (m n : Nat) (hm : m < M) (hn : n < N) :
    (is_block_start k0 BLOCK_SIZE = true ↔ k0 % BLOCK_SIZE = 0) ∧
    (∃ out, int4pack_mm_kernel rnd BLOCK_N A B S M N K group_size c0 = .ok out ∧
      out (m * N + n) = rnd ((List.range K).foldl (fun c_val k =>
        c_val + A (m * K + k) *
          (convert_int4_to_float (B (packedIndex BLOCK_N N K n k)) (n % 2 == 0) *
            S (k / group_size * (N * 2) + n * 2) +
            S (k / group_size * (N * 2) + n * 2 + 1))) 0)) := by
  constructor
  · subst hpow
    unfold is_block_start
    rw [Nat.and_pow_two_sub_one_eq_mod]
    simp
  · exact int4pack_mm_kernel_lookup rnd BLOCK_N A B S M N K group_size c0
      hB hN m n hm hn

/-- C7 (witness): BLOCK_SIZE = 32 = 2^5 with k0 = 64, and the M = 1, N = 16,
K = 2 kernel instance. -/
theorem scale_zero_group_refresh_witness :
    ((32 : Nat) = 2 ^ 5 ∧ ((32 : Nat) = 32 ∨ (32 : Nat) = 64) ∧
      (16 : Nat) % 16 = 0 ∧ (0 : Nat) < 1 ∧ (0 : Nat) < 16) ∧
    ((is_block_start 64 32 = true ↔ 64 % 32 = 0) ∧
      (∃ out, int4pack_mm_kernel id 32 (fun _ => 1) (fun _ => 0) (fun _ => 1)
          1 16 2 2 (fun _ => 0) = .ok out ∧
        out (0 * 16 + 0) = id ((List.range 2).foldl (fun c_val k =>
          c_val + (fun _ : Nat => (1 : ℚ)) (0 * 2 + k) *
            (convert_int4_to_float ((fun _ : Nat => (0 : Nat)) (packedIndex 32 16 2 0 k)) (0 % 2 == 0) *
              (fun _ : Nat => (1 : ℚ)) (k / 2 * (16 * 2) + 0 * 2) +
              (fun _ : Nat => (1 : ℚ)) (k / 2 * (16 * 2) + 0 * 2 + 1))) 0))) :=
  ⟨⟨by norm_num, Or.inl rfl, by norm_num, by norm_num, by norm_num⟩,
   scale_zero_group_refresh id 32 (fun _ => 1) (fun _ => 0) (fun _ => 1)
     1 16 2 2 (fun _ => 0) 64 32 5 (by norm_num) (Or.inl rfl) (by norm_num)
     0 0 (by norm_num) (by norm_num)⟩

/-- C8: accumulate wide, narrow once.  Every output element of
`int4pack_mm_kernel` is the narrowing conversion `rnd` applied exactly once,
at store time, to an accumulator computed as a left fold over the reduction
indices k = 0 .. K-1 in that sequential order, in the wide (unconverted)
arithmetic; no intermediate value passes through the narrow type. -/
theorem accumulate_wide_narrow_once (rnd : ℚ → ℚ) (BLOCK_N : Nat)
    (A : Nat → ℚ) (B : Nat → Nat) (S : Nat → ℚ) (M N K group_size : Nat)
    (c0 : Nat → ℚ) (hB : BLOCK_N = 32 ∨ BLOCK_N = 64) (hN : N % 16 = 0)
    (m n : Nat) (hm : m < M) (hn : n < N) :
    ∃ out acc,
      int4pack_mm_kernel rnd BLOCK_N A B S M N K group_size c0 = .ok out ∧
      acc = (List.range K).foldl (fun c_val k =>
        c_val + A (m * K + k) *
          (convert_int4_to_float (B (packedIndex BLOCK_N N K n k)) (n % 2 == 0) *
            S (k / group_size * (N * 2) + n * 2) +
            S (k / group_size * (N * 2) + n * 2 + 1))) 0 ∧
      out (m * N + n) = rnd acc := by
  obtain ⟨out, hout, hval⟩ := int4pack_mm_kernel_lookup rnd BLOCK_N A B S M N K
    group_size c0 hB hN m n hm hn
  exact ⟨out, _, hout, rfl, hval⟩

/-- C8 (witness): the M = 1, N = 16, K = 2 instance. -/
theorem accumulate_wide_narrow_once_witness :
    (((32 : Nat) = 32 ∨ (32 : Nat) = 64) ∧ (16 : Nat) % 16 = 0 ∧
      (0 : Nat) < 1 ∧ (0 : Nat) < 16) ∧
    (∃ out acc, int4pack_mm_kernel id 32 (fun _ => 1) (fun _ => 0) (fun _ => 1)
        1 16 2 2 (fun _ => 0) = .ok out ∧
      acc = (List.range 2).foldl (fun c_val k =>
        c_val + (fun _ : Nat => (1 : ℚ)) (0 * 2 + k) *
          (convert_int4_to_float ((fun _ : Nat => (0 : Nat)) (packedIndex 32 16 2 0 k)) (0 % 2 == 0) *
            (fun _ : Nat => (1 : ℚ)) (k / 2 * (16 * 2) + 0 * 2) +
            (fun _ : Nat => (1 : ℚ)) (k / 2 * (16 * 2) + 0 * 2 + 1))) 0 ∧
      out (0 * 16 + 0) = id acc) :=
  ⟨⟨Or.inl rfl, by norm_num, by norm_num, by norm_num⟩,
   accumulate_wide_narrow_once id 32 (fun _ => 1) (fun _ => 0) (fun _ => 1)
     1 16 2 2 (fun _ => 0) (Or.inl rfl) (by norm_num) 0 0 (by norm_num)
     (by norm_num)⟩

end Int4mm

namespace Int4mm

/-- Membership in a tile's write-address list, elementwise. -/
theorem mem_tileWriteAddrs (rnd : ℚ → ℚ) (A : Nat → ℚ) (B : Nat → Nat)
    (S : Nat → ℚ) (M N K BLOCK_N BK i a : Nat) :
    a ∈ tileWriteAddrs rnd A B S M N K BLOCK_N BK i ↔
      ∃ m' < min 4 (M - i / ((N + BLOCK_N - 1) / BLOCK_N) * 4),
        ∃ n' < min BLOCK_N (N - i % ((N + BLOCK_N - 1) / BLOCK_N) * BLOCK_N),
          a = i / ((N + BLOCK_N - 1) / BLOCK_N) * 4 * N +
              i % ((N + BLOCK_N - 1) / BLOCK_N) * BLOCK_N + (m' * N + n') := by
  simp only [tileWriteAddrs]
  rw [tinygemm_kernel_eq]
  constructor
  · intro ha
    obtain ⟨p, hp, hpe⟩ := List.mem_map.mp ha
    obtain ⟨m', hm', hp⟩ := List.mem_flatMap.mp hp
    obtain ⟨n', hn', hpe'⟩ := List.mem_map.mp hp
    rw [List.mem_range] at hm' hn'
    subst hpe'
    exact ⟨m', hm', n', hn', hpe.symm⟩
  · rintro ⟨m', hm', n', hn', rfl⟩
    apply List.mem_map.mpr
    refine ⟨(m' * N + n',
      tinygemmEntry rnd A B S K
        (min BLOCK_N (N - i % ((N + BLOCK_N - 1) / BLOCK_N) * BLOCK_N) / 2)
        N K BK m' n'), ?_, rfl⟩
    exact List.mem_flatMap.mpr ⟨m', List.mem_range.mpr hm',
      List.mem_map.mpr ⟨n', List.mem_range.mpr hn', rfl⟩⟩

/-- C9: disjoint exact cover.  For any two distinct in-range flat tile
indices the sets of output addresses written by `int4pack_mm_kernel` are
disjoint, and every element of the M×N output lies in the write set of some
in-range tile — so each output element is written exactly once per
invocation. -/
theorem tile_writes_disjoint_cover (rnd : ℚ → ℚ) (A : Nat → ℚ) (B : Nat → Nat)
    (S : Nat → ℚ) (M N K BLOCK_N BK : Nat)
    (hB : BLOCK_N = 32 ∨ BLOCK_N = 64) :
    (∀ i j, i < (M + 4 - 1) / 4 * ((N + BLOCK_N - 1) / BLOCK_N) →
      j < (M + 4 - 1) / 4 * ((N + BLOCK_N - 1) / BLOCK_N) → i ≠ j →
      ∀ a ∈ tileWriteAddrs rnd A B S M N K BLOCK_N BK i,
        a ∉ tileWriteAddrs rnd A B S M N K BLOCK_N BK j) ∧
    (∀ m n, m < M → n < N →
      ∃ i, i < (M + 4 - 1) / 4 * ((N + BLOCK_N - 1) / BLOCK_N) ∧
        (m * N + n) ∈ tileWriteAddrs rnd A B S M N K BLOCK_N BK i) := by
  have hB0 : 0 < BLOCK_N := by rcases hB with h | h <;> omega
  constructor
  · intro i j hi hj hij a hai haj
    have hNB0 : 0 < (N + BLOCK_N - 1) / BLOCK_N := by
      rcases Nat.eq_zero_or_pos ((N + BLOCK_N - 1) / BLOCK_N) with h0 | h0
      · rw [h0, Nat.mul_zero] at hi; exact absurd hi (Nat.not_lt_zero i)
      · exact h0
    obtain ⟨m1, hm1, n1, hn1, he1⟩ :=
      (mem_tileWriteAddrs rnd A B S M N K BLOCK_N BK i a).mp hai
    obtain ⟨m2, hm2, n2, hn2, he2⟩ :=
      (mem_tileWriteAddrs rnd A B S M N K BLOCK_N BK j a).mp haj
    have hr1 : a = (i / ((N + BLOCK_N - 1) / BLOCK_N) * 4 + m1) * N +
        (i % ((N + BLOCK_N - 1) / BLOCK_N) * BLOCK_N + n1) := by
      rw [he1]; ring
    have hr2 : a = (j / ((N + BLOCK_N - 1) / BLOCK_N) * 4 + m2) * N +
        (j % ((N + BLOCK_N - 1) / BLOCK_N) * BLOCK_N + n2) := by
      rw [he2]; ring
    have hc1 : i % ((N + BLOCK_N - 1) / BLOCK_N) * BLOCK_N + n1 < N := by omega
    have hc2 : j % ((N + BLOCK_N - 1) / BLOCK_N) * BLOCK_N + n2 < N := by omega
    obtain ⟨hrow, hcol⟩ := mul_add_inj hc1 hc2 (hr1.symm.trans hr2)
    have hm14 : m1 < 4 := by omega
    have hm24 : m2 < 4 := by omega
    have hrow' : i / ((N + BLOCK_N - 1) / BLOCK_N) =
        j / ((N + BLOCK_N - 1) / BLOCK_N) := by
      have e1 := (@flat_divmod 4 (i / ((N + BLOCK_N - 1) / BLOCK_N)) m1
        (by omega) hm14).1
      have e2 := (@flat_divmod 4 (j / ((N + BLOCK_N - 1) / BLOCK_N)) m2
        (by omega) hm24).1
      rw [← e1, ← e2, hrow]
    have hn1B : n1 < BLOCK_N := by omega
    have hn2B : n2 < BLOCK_N := by omega
    have hcol' : i % ((N + BLOCK_N - 1) / BLOCK_N) =
        j % ((N + BLOCK_N - 1) / BLOCK_N) := by
      have e1 := (@flat_divmod BLOCK_N (i % ((N + BLOCK_N - 1) / BLOCK_N)) n1
        hB0 hn1B).1
      have e2 := (@flat_divmod BLOCK_N (j % ((N + BLOCK_N - 1) / BLOCK_N)) n2
        hB0 hn2B).1
      rw [← e1, ← e2, hcol]
    apply hij
    have hdi := Nat.div_add_mod i ((N + BLOCK_N - 1) / BLOCK_N)
    have hdj := Nat.div_add_mod j ((N + BLOCK_N - 1) / BLOCK_N)
    rw [← hdi, ← hdj, hrow', hcol']
  · intro m n hm hn
    have hNB0 : 0 < (N + BLOCK_N - 1) / BLOCK_N := by
      rcases hB with h | h <;> subst h <;> omega
    have hmbT : m / 4 < (M + 4 - 1) / 4 := by omega
    have hnbT : n / BLOCK_N < (N + BLOCK_N - 1) / BLOCK_N := by
      rcases hB with h | h <;> subst h <;> omega
    refine ⟨m / 4 * ((N + BLOCK_N - 1) / BLOCK_N) + n / BLOCK_N,
      mul_add_lt hmbT hnbT, ?_⟩
    rw [mem_tileWriteAddrs]
    rw [(flat_divmod hNB0 hnbT).1, (flat_divmod hNB0 hnbT).2]
    have hdmn : n / BLOCK_N * BLOCK_N + n % BLOCK_N = n :=
      Nat.div_add_mod' n BLOCK_N
    refine ⟨m % 4, by omega, n % BLOCK_N, ?_, ?_⟩
    · have := Nat.mod_lt n hB0
      omega
    · have h1 : m / 4 * 4 + m % 4 = m := Nat.div_add_mod' m 4
      calc m * N + n
          = (m / 4 * 4 + m % 4) * N + (n / BLOCK_N * BLOCK_N + n % BLOCK_N) := by
            rw [h1, hdmn]
        _ = m / 4 * 4 * N + n / BLOCK_N * BLOCK_N + (m % 4 * N + n % BLOCK_N) := by
            ring

/-- C9 (witness): M = 5, N = 16, BLOCK_N = 32 gives two tiles; address 0
of tile 0 is not written by tile 1, and element (4, 3) is covered. -/
theorem tile_writes_disjoint_cover_witness :
    ((32 : Nat) = 32 ∨ (32 : Nat) = 64) ∧
    ((0 : Nat) ∉ tileWriteAddrs id (fun _ => 0) (fun _ => 0) (fun _ => 0)
      5 16 0 32 32 1) ∧
    (∃ i, i < (5 + 4 - 1) / 4 * ((16 + 32 - 1) / 32) ∧
      (4 * 16 + 3) ∈ tileWriteAddrs id (fun _ => 0) (fun _ => 0) (fun _ => 0)
        5 16 0 32 32 i) := by
  refine ⟨Or.inl rfl, ?_, ?_⟩
  · exact (tile_writes_disjoint_cover id (fun _ => 0) (fun _ => 0) (fun _ => 0)
      5 16 0 32 32 (Or.inl rfl)).1 0 1 (by decide) (by decide) (by decide)
      0 (by decide)
  · exact (tile_writes_disjoint_cover id (fun _ => 0) (fun _ => 0) (fun _ => 0)
      5 16 0 32 32 (Or.inl rfl)).2 4 3 (by decide) (by decide)

end Int4mm

namespace Int4mm

/-- C10: for M ≥ 1 every in-range tile's mb_size lies in {1,2,3,4}, so the
dispatch always enters the nb_size switch and the "Unsupported m block size"
branch is unreachable; the nb_size check fails for some in-range tile exactly
when N is not a multiple of 16, and when N mod BLOCK_N is nonzero the final
column tile's nb_size equals N mod BLOCK_N. -/
theorem mb_size_always_supported (BLOCK_N M N : Nat)
    (hB : BLOCK_N = 32 ∨ BLOCK_N = 64) (hM : 0 < M) :
    (∀ i, i < (M + 4 - 1) / 4 * ((N + BLOCK_N - 1) / BLOCK_N) →
      (1 ≤ min 4 (M - i / ((N + BLOCK_N - 1) / BLOCK_N) * 4) ∧
        min 4 (M - i / ((N + BLOCK_N - 1) / BLOCK_N) * 4) ≤ 4) ∧
      ∀ (rnd : ℚ → ℚ) (A : Nat → ℚ) (B : Nat → Nat) (S : Nat → ℚ) (K BK : Nat),
        tile_dispatch rnd (min 4 (M - i / ((N + BLOCK_N - 1) / BLOCK_N) * 4))
          (min BLOCK_N (N - i % ((N + BLOCK_N - 1) / BLOCK_N) * BLOCK_N))
          A B S N K BK =
        launch_tinygemm_nb_size rnd
          (min 4 (M - i / ((N + BLOCK_N - 1) / BLOCK_N) * 4))
          (min BLOCK_N (N - i % ((N + BLOCK_N - 1) / BLOCK_N) * BLOCK_N))
          A B S N K BK) ∧
    ((∃ i, i < (M + 4 - 1) / 4 * ((N + BLOCK_N - 1) / BLOCK_N) ∧
      ¬(min BLOCK_N (N - i % ((N + BLOCK_N - 1) / BLOCK_N) * BLOCK_N) = 16 ∨
        min BLOCK_N (N - i % ((N + BLOCK_N - 1) / BLOCK_N) * BLOCK_N) = 32 ∨
        min BLOCK_N (N - i % ((N + BLOCK_N - 1) / BLOCK_N) * BLOCK_N) = 48 ∨
        min BLOCK_N (N - i % ((N + BLOCK_N - 1) / BLOCK_N) * BLOCK_N) = 64)) ↔
      N % 16 ≠ 0) ∧
    (N % BLOCK_N ≠ 0 →
      min BLOCK_N (N - ((N + BLOCK_N - 1) / BLOCK_N - 1) * BLOCK_N) =
        N % BLOCK_N) := by
  refine ⟨?_, ⟨?_, ?_⟩, ?_⟩
  · intro i hi
    have hNB0 : 0 < (N + BLOCK_N - 1) / BLOCK_N := by
      rcases Nat.eq_zero_or_pos ((N + BLOCK_N - 1) / BLOCK_N) with h0 | h0
      · rw [h0, Nat.mul_zero] at hi; exact absurd hi (Nat.not_lt_zero i)
      · exact h0
    have hmb : i / ((N + BLOCK_N - 1) / BLOCK_N) < (M + 4 - 1) / 4 := by
      rw [Nat.div_lt_iff_lt_mul hNB0]; exact hi
    have hbounds := tile_mb_size_bounds rfl hmb
    refine ⟨hbounds, ?_⟩
    intro rnd A B S K BK
    exact tile_dispatch_to_launch rnd _ _ A B S N K BK (by omega)
  · rintro ⟨i, hi, hbad⟩
    by_contra h16
    have h16' : N % 16 = 0 := by omega
    have hNB0 : 0 < (N + BLOCK_N - 1) / BLOCK_N := by
      rcases Nat.eq_zero_or_pos ((N + BLOCK_N - 1) / BLOCK_N) with h0 | h0
      · rw [h0, Nat.mul_zero] at hi; exact absurd hi (Nat.not_lt_zero i)
      · exact h0
    exact hbad (tile_nb_size_bounds hB rfl (Nat.mod_lt i hNB0) h16')
  · intro hbad
    have hN0 : 0 < N := by omega
    have hNB0 : 0 < (N + BLOCK_N - 1) / BLOCK_N := by
      rcases hB with h | h <;> subst h <;> omega
    have hMB0 : 0 < (M + 4 - 1) / 4 := by omega
    have hNBle : (N + BLOCK_N - 1) / BLOCK_N ≤
        (M + 4 - 1) / 4 * ((N + BLOCK_N - 1) / BLOCK_N) :=
      Nat.le_mul_of_pos_left _ hMB0
    refine ⟨(N + BLOCK_N - 1) / BLOCK_N - 1, by omega, ?_⟩
    have hm : ((N + BLOCK_N - 1) / BLOCK_N - 1) % ((N + BLOCK_N - 1) / BLOCK_N) =
        (N + BLOCK_N - 1) / BLOCK_N - 1 := Nat.mod_eq_of_lt (by omega)
    rw [hm]
    rcases hB with h | h <;> subst h <;> omega
  · intro hbad
    rcases hB with h | h <;> subst h <;> omega

/-- C10 (witness): BLOCK_N = 32, M = 1, N = 8 — one tile, mb_size in range,
dispatch enters the nb switch, and the final (only) column tile has
nb_size = 8 % 32 = 8. -/
theorem mb_size_always_supported_witness :
    (((32 : Nat) = 32 ∨ (32 : Nat) = 64) ∧ (0 : Nat) < 1 ∧
      (0 : Nat) < (1 + 4 - 1) / 4 * ((8 + 32 - 1) / 32) ∧ (8 : Nat) % 32 ≠ 0) ∧
    ((1 ≤ min 4 (1 - 0 / ((8 + 32 - 1) / 32) * 4) ∧
        min 4 (1 - 0 / ((8 + 32 - 1) / 32) * 4) ≤ 4) ∧
      min 32 (8 - ((8 + 32 - 1) / 32 - 1) * 32) = 8 % 32) :=
  ⟨⟨Or.inl rfl, by norm_num, by norm_num, by norm_num⟩,
   ((mb_size_always_supported 32 1 8 (Or.inl rfl) (by norm_num)).1 0
      (by norm_num)).1,
   (mb_size_always_supported 32 1 8 (Or.inl rfl) (by norm_num)).2.2
      (by norm_num)⟩

end Int4mm
